import Mathlib

/-!
# Verification of the hyrise automatic index-tuning subsystem

Shallow embedding of the index tuning components:

* `IndexSelector::select_indices` (src/lib/tuning/system_statistics.cpp, third
  translation unit: index_selector.cpp) — the budgeted swap-and-replace
  selection loop;
* `IndexEvaluator` (src/lib/optimizer/abstract_syntax_tree/aggregate_node.cpp,
  fourth translation unit: index_evaluator.cpp) — per-record saved-work
  accumulation and memory-cost prediction;
* `BaseIndexEvaluator` plan walkers and cache inspection
  (src/lib/tuning/index/base_index_evaluator.cpp).

C++ `float` quantities are embedded as `ℚ` (exact arithmetic); machine
integers as `Nat`.  Fallible code (assertions, `boost::get` on a variant)
is embedded in `Except String`.  Loops with pointer arithmetic are embedded
as fuel-indexed structural recursions; the fuel supplied by the entry points
always dominates the loop variant, so the embedding computes exactly the
C++ iteration.
-/

namespace HyriseTuning

/-! ### Definitions -/

/-- Source `ColumnIndexType` from storage/index/column_index_type.hpp. -/
inductive ColumnIndexType where
  | Invalid
  | GroupKey
  | CompositeGroupKey
  | AdaptiveRadixTree
deriving DecidableEq, Repr

/-- The single-column column reference used by `IndexEvaluation`
(`column.table_name`, `column.column_id`). -/
structure ColumnRefOne where
  table_name : String
  column_id : Nat
deriving DecidableEq, Repr

/-- Source `IndexEvaluation`: one scored candidate consumed by
`IndexSelector::select_indices`.  Field names follow the source (including
the `desirablility` spelling); `exists` is a Lean keyword, so the boolean is
called `index_exists` as in the later `IndexTuningChoice` revision. -/
structure IndexEvaluation where
  column : ColumnRefOne
  desirablility : ℚ
  index_exists : Bool
  index_type : ColumnIndexType
  memory_cost : ℚ
deriving DecidableEq, Repr

instance : Inhabited IndexEvaluation :=
  ⟨{ column := ⟨"", 0⟩, desirablility := 0, index_exists := false,
     index_type := .Invalid, memory_cost := 0 }⟩

/-- Source `IndexOperation(table_name, column_id, create)` as constructed by
`_operations.emplace_back(...)`. -/
structure IndexOperation where
  table_name : String
  column_id : Nat
  create : Bool
deriving DecidableEq, Repr

/-- An emitted operation together with ghost data recording the evaluation
that produced it: its `memory_cost`, its `desirablility` (`work`) and its
position `pos` in the sorted evaluation vector.  The ghost fields exist only
so that specifications can talk about the memory and saved-work deltas of an
operation sequence; `select_indices` projects them away. -/
structure PlannedOp where
  op : IndexOperation
  cost : ℚ
  work : ℚ
  pos : Nat
deriving DecidableEq, Repr

/-- Drop operation for evaluation `e` at sorted position `p`
(`emplace_back(column.table_name, column.column_id, false)`). -/
def dropRec (e : IndexEvaluation) (p : Nat) : PlannedOp :=
  ⟨⟨e.column.table_name, e.column.column_id, false⟩, e.memory_cost, e.desirablility, p⟩

/-- Create operation for evaluation `e` at sorted position `p`
(`emplace_back(column.table_name, column.column_id, true)`). -/
def createRec (e : IndexEvaluation) (p : Nat) : PlannedOp :=
  ⟨⟨e.column.table_name, e.column.column_id, true⟩, e.memory_cost, e.desirablility, p⟩

/-- The comparator of `std::sort(evaluations.begin(), evaluations.end())`.
`IndexEvaluation::operator<` is declared outside the sources at hand; the
source comment fixes its meaning: "sort evaluations by ascending
desirability". -/
def evalLE (a b : IndexEvaluation) : Prop :=
  a.desirablility ≤ b.desirablility

instance : DecidableRel evalLE := fun a b =>
  inferInstanceAs (Decidable (a.desirablility ≤ b.desirablility))

/-- The sorting step of `select_indices`.  `std::sort` guarantees only a
result ordered by the comparator; we embed it as insertion sort, one valid
`std::sort` behaviour. -/
def sortEvaluations (evaluations : List IndexEvaluation) : List IndexEvaluation :=
  evaluations.insertionSort evalLE

/-- Source `memory_consumption` initialisation: sum of `memory_cost` over the
evaluations with `index.exists`. -/
def memoryInUse : List IndexEvaluation → ℚ
  | [] => 0
  | e :: rest => (if e.index_exists then e.memory_cost else 0) + memoryInUse rest

/-- Sum of `desirablility` over the evaluations with `index.exists`:
the saved work achieved by the initial live index set. -/
def existingSavedWork : List IndexEvaluation → ℚ
  | [] => 0
  | e :: rest => (if e.index_exists then e.desirablility else 0) + existingSavedWork rest

/-- The inner sacrifice scan of `select_indices`:
`while (obtained_memory < required_memory && sacrifice_index != best_index)`,
accumulating cost and desirability of existing entries.  Returns
`(obtained_memory, sacrificed_desirability, sacrifice_index)`.  The callers
pass fuel `b - s`, which the scan can never exhaust before its guard stops
it. -/
def sacrificeWalk (l : List IndexEvaluation) (b : Nat) (required : ℚ) :
    Nat → ℚ → ℚ → Nat → ℚ × ℚ × Nat
  | s, obtained, sacrificed, 0 => (obtained, sacrificed, s)
  | s, obtained, sacrificed, fuel + 1 =>
    if obtained < required ∧ s ≠ b then
      let e := l.getD s default
      if e.index_exists then
        sacrificeWalk l b required (s + 1) (obtained + e.memory_cost)
          (sacrificed + e.desirablility) fuel
      else
        sacrificeWalk l b required (s + 1) obtained sacrificed fuel
    else
      (obtained, sacrificed, s)

/-- The drop loop of the accepted-swap branch:
`for (delete_index = worst_index; delete_index != sacrifice_index; ++delete_index)`
emitting a drop for every existing entry.  `n` counts the positions
`[a, a + n)` still to visit. -/
def dropsRange (l : List IndexEvaluation) : Nat → Nat → List PlannedOp
  | _, 0 => []
  | a, n + 1 =>
    if (l.getD a default).index_exists then
      dropRec (l.getD a default) a :: dropsRange l (a + 1) n
    else
      dropsRange l (a + 1) n

/-- The main `while (best_index >= worst_index)` loop of `select_indices`,
operating on the sorted vector `l` with worst pointer `w`, best pointer `b`
and running `memory_consumption` `mem`.  Decrementing `best_index` at
position `0` moves it before `begin`, which terminates the C++ loop; here
that is the `b = 0` early return.  The entry point supplies fuel
`l.length`, which dominates the loop variant `b + 1 - w`. -/
def selectLoop (l : List IndexEvaluation) (memory_budget : ℚ) :
    Nat → Nat → ℚ → Nat → List PlannedOp
  | _, _, _, 0 => []
  | w, b, mem, fuel + 1 =>
    if b < w then []
    else
      let worst := l.getD w default
      let best := l.getD b default
      if worst.desirablility < 0 ∧ -worst.desirablility > best.desirablility then
        -- deleting worst index is more beneficial than creating best index
        if worst.index_exists then
          dropRec worst w ::
            selectLoop l memory_budget (w + 1) b (mem - worst.memory_cost) fuel
        else
          selectLoop l memory_budget (w + 1) b mem fuel
      else if best.index_exists then
        if b = 0 then [] else selectLoop l memory_budget w (b - 1) mem fuel
      else
        let required := best.memory_cost + mem - memory_budget
        let res := sacrificeWalk l b required w 0 0 (b - w)
        if required ≤ res.1 ∧ res.2.1 ≤ best.desirablility then
          dropsRange l w (res.2.2 - w) ++
            createRec best b ::
              (if b = 0 then []
               else selectLoop l memory_budget res.2.2 (b - 1)
                 (mem - res.1 + best.memory_cost) fuel)
        else
          if b = 0 then [] else selectLoop l memory_budget w (b - 1) mem fuel

/-- Source `IndexSelector::select_indices`, instrumented: the emitted operations in
order, each paired with the ghost record of the evaluation that produced
it. -/
def selectIndicesRec (evaluations : List IndexEvaluation) (memory_budget : ℚ) :
    List PlannedOp :=
  if evaluations.length = 0 then []
  else
    let sorted := sortEvaluations evaluations
    selectLoop sorted memory_budget 0 (sorted.length - 1) (memoryInUse sorted)
      sorted.length

/-- Source `IndexSelector::select_indices`: the operation sequence returned to the
tuner. -/
def select_indices (evaluations : List IndexEvaluation) (memory_budget : ℚ) :
    List IndexOperation :=
  (selectIndicesRec evaluations memory_budget).map (·.op)

/-- Signed memory delta of one operation: a create adds the index's memory
cost, a drop removes it. -/
def opMemDelta (o : PlannedOp) : ℚ :=
  if o.op.create then o.cost else -o.cost

/-- Total index memory of the configuration reached from a configuration of
memory `initial` by applying the operations in order. -/
def memoryAfter (initial : ℚ) (ops : List PlannedOp) : ℚ :=
  initial + (ops.map opMemDelta).sum

/-- Signed saved-work delta of one operation. -/
def opWorkDelta (o : PlannedOp) : ℚ :=
  if o.op.create then o.work else -o.work

/-- Total saved work of the live set reached from a live set of saved work
`initial` by applying the operations in order. -/
def savedWorkAfter (initial : ℚ) (ops : List PlannedOp) : ℚ :=
  initial + (ops.map opWorkDelta).sum

/-- Sum of `memory_cost` over the existing entries at positions
`[a, a + n)` of `l`. -/
def costRange (l : List IndexEvaluation) : Nat → Nat → ℚ
  | _, 0 => 0
  | a, n + 1 =>
    (if (l.getD a default).index_exists then (l.getD a default).memory_cost else 0) +
      costRange l (a + 1) n

/-- Sum of `desirablility` over the existing entries at positions
`[a, a + n)` of `l`. -/
def workRange (l : List IndexEvaluation) : Nat → Nat → ℚ
  | _, 0 => 0
  | a, n + 1 =>
    (if (l.getD a default).index_exists then (l.getD a default).desirablility else 0) +
      workRange l (a + 1) n

/-- Specification predicate: `opsRespectBudget budget mem ops` checks that, starting from a
configuration of total index memory `mem`, the memory after **each**
operation of `ops` completes stays at most `budget`. -/
def opsRespectBudget (budget : ℚ) : ℚ → List PlannedOp → Bool
  | _, [] => true
  | mem, o :: ops =>
    decide (mem + opMemDelta o ≤ budget) && opsRespectBudget budget (mem + opMemDelta o) ops

/-- Shorthand for building an `IndexEvaluation` in concrete instances. -/
def mkEval (t : String) (c : Nat) (des : ℚ) (ex : Bool) (cost : ℚ) : IndexEvaluation :=
  { column := ⟨t, c⟩, desirablility := des, index_exists := ex,
    index_type := .GroupKey, memory_cost := cost }

/-- Sorted-vector positions of the evaluations behind the drop operations,
in emission order. -/
def dropPositions (ops : List PlannedOp) : List Nat :=
  (ops.filter fun o => !o.op.create).map (·.pos)

/-- Sorted-vector positions of the evaluations behind the create
operations, in emission order. -/
def createPositions (ops : List PlannedOp) : List Nat :=
  (ops.filter fun o => o.op.create).map (·.pos)

/-- Modelled from the claim: the choice vector describing the configuration
obtained by applying the selector's previous output — each dropped index is
absent, each accepted create is now an `exists == true` choice, all other
choices are unchanged. -/
def applySelectedOps (evaluations : List IndexEvaluation)
    (ops : List IndexOperation) : List IndexEvaluation :=
  (evaluations.filter fun e =>
      !(ops.any fun o => !o.create && o.table_name == e.column.table_name &&
          o.column_id == e.column.column_id)).map fun e =>
    if ops.any fun o => o.create && o.table_name == e.column.table_name &&
        o.column_id == e.column.column_id then
      { e with index_exists := true }
    else e

/-- Specification predicate: `dropsCoveredByCreate ops` checks that every drop in `ops` is followed
(later in the list) by some create: drops occur only as the sacrifice part
of an accepted swap. -/
def dropsCoveredByCreate : List PlannedOp → Bool
  | [] => true
  | o :: rest =>
    if o.op.create then dropsCoveredByCreate rest
    else (rest.any fun p => p.op.create) && dropsCoveredByCreate rest

instance : IsTotal IndexEvaluation evalLE :=
  ⟨fun a b => le_total a.desirablility b.desirablility⟩

instance : IsTrans IndexEvaluation evalLE :=
  ⟨fun _ _ _ hab hbc => le_trans hab hbc⟩

/-- Source `ColumnRef` from tuning/index/column_ref.hpp: table name plus an
ordered list of column ids. -/
structure ColumnRef where
  table_name : String
  column_ids : List Nat
deriving DecidableEq, Repr

/-- Source `PredicateCondition` (types.hpp), the scan conditions the tuner can
meet. -/
inductive PredicateCondition where
  | Equals
  | NotEquals
  | LessThan
  | LessThanEquals
  | GreaterThan
  | GreaterThanEquals
  | Between
  | Like
  | IsNull
deriving DecidableEq, Repr

/-- Source `AllTypeVariant`: a literal scalar value. -/
inductive AllTypeVariant where
  | intVal (i : Int)
  | floatVal (q : ℚ)
  | strVal (s : String)
  | nullVal
deriving DecidableEq, Repr

/-- Source `AllParameterVariant`: either a literal `AllTypeVariant`, a column id,
or a value placeholder. -/
inductive AllParameterVariant where
  | value (v : AllTypeVariant)
  | column (c : Nat)
  | placeholder (i : Nat)
deriving DecidableEq, Repr

/-- Source `boost::get<AllTypeVariant>` on an `AllParameterVariant`: succeeds on a
literal, throws `boost::bad_get` otherwise. -/
def boostGetAllTypeVariant : AllParameterVariant → Except String AllTypeVariant
  | .value v => .ok v
  | _ => .error "boost bad_get: AllTypeVariant"

/-- Source `BaseIndexEvaluator::AccessRecord`. -/
structure AccessRecord where
  column_ref : ColumnRef
  condition : PredicateCondition
  compare_value : AllTypeVariant
  query_frequency : Nat
deriving DecidableEq, Repr

/-- One step of `_process_access_record`: accumulate
`(row_count - match_rows) * query_frequency` into the `_saved_work` map
under the record's `column_ref` (insert-or-add, as the C++ `count`-guarded
update). -/
def processAccessRecord (rowCount : String → ℚ)
    (matchRows : String → Nat → PredicateCondition → AllTypeVariant → ℚ)
    (m : ColumnRef → Option ℚ) (record : AccessRecord) : ColumnRef → Option ℚ :=
  let total_rows := rowCount record.column_ref.table_name
  let match_rows := matchRows record.column_ref.table_name
    (record.column_ref.column_ids.headD 0) record.condition record.compare_value
  let unscanned_rows := total_rows - match_rows
  let saved_work := unscanned_rows * (record.query_frequency : ℚ)
  fun c =>
    if c = record.column_ref then
      match m record.column_ref with
      | some v => some (v + saved_work)
      | none => some saved_work
    else m c

/-- The `_saved_work` map after the aggregation hook has run over all
access records in arrival order (`_setup` starts from the empty map). -/
def processAllRecords (rowCount : String → ℚ)
    (matchRows : String → Nat → PredicateCondition → AllTypeVariant → ℚ)
    (records : List AccessRecord) : ColumnRef → Option ℚ :=
  records.foldl (processAccessRecord rowCount matchRows) (fun _ => none)

/-- Source `IndexEvaluator::_get_saved_work`: map lookup defaulting to `0`. -/
def getSavedWork (m : ColumnRef → Option ℚ) (c : ColumnRef) : ℚ :=
  match m c with
  | some v => v
  | none => 0

/-- The claimed closed form: the contribution of one record. -/
def recordSavedWork (rowCount : String → ℚ)
    (matchRows : String → Nat → PredicateCondition → AllTypeVariant → ℚ)
    (r : AccessRecord) : ℚ :=
  (rowCount r.column_ref.table_name -
      matchRows r.column_ref.table_name (r.column_ref.column_ids.headD 0)
        r.condition r.compare_value) * (r.query_frequency : ℚ)

/-- The claimed closed form: sum of contributions of the records carrying
column `c`. -/
def totalSavedWork (rowCount : String → ℚ)
    (matchRows : String → Nat → PredicateCondition → AllTypeVariant → ℚ)
    (records : List AccessRecord) (c : ColumnRef) : ℚ :=
  ((records.filter fun r => r.column_ref = c).map
    (recordSavedWork rowCount matchRows)).sum

/-- Doubling the `query_frequency` of a record (for the linearity part of
the claim). -/
def doubleFrequency (r : AccessRecord) : AccessRecord :=
  { r with query_frequency := 2 * r.query_frequency }

/-- Source `IndexChoice` of the tuning/index revision, as used by
`IndexEvaluator`. -/
structure IndexChoice where
  column_ref : ColumnRef
  saved_work : ℚ
  index_exists : Bool
  index_type : ColumnIndexType
  memory_cost : ℚ
deriving DecidableEq, Repr

/-- The table-side quantities `_predict_memory_cost` reads: `row_count()`,
`chunk_count()`, per-column `distinct_count()` (u64 per the statistics
interface) and per-column `sizeof(ColumnDataType)`. -/
structure TableModel where
  row_count : Nat
  chunk_count : Nat
  distinct_count : Nat → Nat
  column_byte_width : Nat → Nat

/-- Source `IndexEvaluator::_predict_memory_cost`, with
`BaseIndex::predict_memory_consumption` abstracted as the function
parameter `model`.  `chunk_rows` and `chunk_distinct_values` are the
machine integer divisions of the source; `value_bytes` accumulates the
column byte widths as the source's loop does. -/
def predict_memory_cost (model : ColumnIndexType → Nat → Nat → Nat → Nat)
    (tbl : TableModel) (choice : IndexChoice) : Nat :=
  let distinct_value_count := tbl.distinct_count (choice.column_ref.column_ids.headD 0)
  let value_bytes :=
    choice.column_ref.column_ids.foldl (fun acc cid => acc + tbl.column_byte_width cid) 0
  let chunk_rows := tbl.row_count / tbl.chunk_count
  let chunk_distinct_values := distinct_value_count / tbl.chunk_count
  let memory_cost_per_chunk :=
    model choice.index_type chunk_rows chunk_distinct_values value_bytes
  memory_cost_per_chunk * tbl.chunk_count

/-- The `evaluate()` step that assigns `memory_cost`: measured for an
existing index, predicted otherwise (`measured` abstracts
`_existing_memory_cost`). -/
def evaluatedMemoryCost (model : ColumnIndexType → Nat → Nat → Nat → Nat)
    (tbl : TableModel) (measured : ColumnRef → ColumnIndexType → Nat)
    (choice : IndexChoice) : Nat :=
  if choice.index_exists then measured choice.column_ref choice.index_type
  else predict_memory_cost model tbl choice

/-- Nat division rounding to the nearest integer, for stating the claim's
"rounded" reading. -/
def roundedDiv (a b : Nat) : Nat := (2 * a + b) / (2 * b)

/-- The claim's formula, written from the spec's words: per-chunk model
value at `chunk_rows = row_count / chunk_count` and
`chunk_distinct = distinct_count / chunk_count` **rounded**, with a
`distinct_count` smaller than `chunk_count` clamped to `1`, multiplied by
`chunk_count`. -/
def claimedPredictCost (model : ColumnIndexType → Nat → Nat → Nat → Nat)
    (tbl : TableModel) (choice : IndexChoice) : Nat :=
  let distinct_value_count := tbl.distinct_count (choice.column_ref.column_ids.headD 0)
  let value_bytes :=
    choice.column_ref.column_ids.foldl (fun acc cid => acc + tbl.column_byte_width cid) 0
  let chunk_rows := roundedDiv tbl.row_count tbl.chunk_count
  let chunk_distinct_values :=
    if distinct_value_count < tbl.chunk_count then 1
    else roundedDiv distinct_value_count tbl.chunk_count
  model choice.index_type chunk_rows chunk_distinct_values value_bytes * tbl.chunk_count

/-- Logical plan node types the walker distinguishes. -/
inductive LQPNodeType where
  | Predicate
  | StoredTable
  | Join
  | Projection
  | Validate
  | Other
deriving DecidableEq, Repr

/-- What a `LQPColumnReference` resolves to: the type of its
`original_node()`, that node's table name (meaningful when it is a
`StoredTableNode`), and the result of `find_output_column_id`. -/
structure LQPColumnOrigin where
  node_type : LQPNodeType
  table_name : String
  column_id : Option Nat
deriving DecidableEq, Repr

/-- The predicate-specific surface of a `PredicateNode`:
`column_reference()` (with its resolution), `predicate_condition()` and
`value()`. -/
structure PredicateInfo where
  column_origin : Option LQPColumnOrigin
  condition : PredicateCondition
  value : AllParameterVariant
deriving DecidableEq, Repr

/-- A logical query plan tree.  `pred` is the predicate surface; a
`Predicate`-typed node whose `pred` is `none` models a node that fails the
`dynamic_pointer_cast<const PredicateNode>`. -/
inductive LQPTree where
  | node0 (ty : LQPNodeType) (pred : Option PredicateInfo)
  | node1 (ty : LQPNodeType) (pred : Option PredicateInfo) (left : LQPTree)
  | node2 (ty : LQPNodeType) (pred : Option PredicateInfo) (left : LQPTree) (right : LQPTree)
deriving DecidableEq, Repr

def LQPTree.nodeType : LQPTree → LQPNodeType
  | .node0 ty _ => ty
  | .node1 ty _ _ => ty
  | .node2 ty _ _ _ => ty

def LQPTree.predInfo : LQPTree → Option PredicateInfo
  | .node0 _ p => p
  | .node1 _ p _ => p
  | .node2 _ p _ _ => p

/-- The children pushed onto the work list (`left_input()` then
`right_input()`, when present). -/
def LQPTree.children : LQPTree → List LQPTree
  | .node0 _ _ => []
  | .node1 _ _ l => [l]
  | .node2 _ _ l r => [l, r]

def LQPTree.size : LQPTree → Nat
  | .node0 _ _ => 1
  | .node1 _ _ l => 1 + l.size
  | .node2 _ _ l r => 1 + l.size + r.size

def lqpQueueSize (queue : List LQPTree) : Nat :=
  (queue.map LQPTree.size).sum

/-- The `switch (lqp_node->type())` body of
`BaseIndexEvaluator::_inspect_lqp_operator`, for one node: a `Predicate`
node with a resolvable column reference rooted in a `StoredTable` yields
one `AccessRecord`; its `compare_value` is obtained with
`boost::get<AllTypeVariant>` (which throws on a non-literal), and a
stored-table reference whose column id cannot be resolved trips a
`DebugAssert`.  Failed assertions and thrown exceptions are
`Except.error`; `Join` and all other node types yield nothing. -/
def lqpNodeAction (query_frequency : Nat) (t : LQPTree) :
    Except String (Option AccessRecord) :=
  match t.nodeType with
  | .Predicate =>
    match t.predInfo with
    | none => .error "LQP node is not actually a PredicateNode"
    | some info =>
      match info.column_origin with
      | none => .ok none
      | some origin =>
        if origin.node_type = .StoredTable then
          match origin.column_id with
          | none => .error "Could not find column ID for LQPColumnReference"
          | some cid =>
            match boostGetAllTypeVariant info.value with
            | .error e => .error e
            | .ok v =>
              .ok (some { column_ref := ⟨origin.table_name, [cid]⟩,
                          condition := info.condition,
                          compare_value := v,
                          query_frequency := query_frequency })
        else .ok none
  | _ => .ok none

/-- The work-list loop of `BaseIndexEvaluator::_inspect_lqp_operator`
(tuning/index revision): pop the front node, push its children
(`left_input()` then `right_input()`), then act on its type via
`lqpNodeAction`.  Entry points supply fuel equal to the queue size, which
the loop consumes one node at a time. -/
def inspectLQPQueue (query_frequency : Nat) :
    List LQPTree → Nat → Except String (List AccessRecord)
  | _, 0 => .ok []
  | [], _ + 1 => .ok []
  | t :: queue, fuel + 1 =>
    match lqpNodeAction query_frequency t with
    | .error e => .error e
    | .ok orec => do
      let rest ← inspectLQPQueue query_frequency (queue ++ t.children) fuel
      .ok (orec.toList ++ rest)

/-- Source `BaseIndexEvaluator::_inspect_lqp_operator`. -/
def inspect_lqp_operator (op : LQPTree) (query_frequency : Nat) :
    Except String (List AccessRecord) :=
  inspectLQPQueue query_frequency [op] op.size

/-- A physical query plan tree, shaped on the operators the walker
distinguishes: `GetTable` (leaf), `Validate` (unary), `TableScan` (unary,
exposing `left_column_id`, `predicate_condition`, `right_parameter`), and
any other operator with zero, one or two inputs. -/
inductive PQPTree where
  | getTable (table_name : String)
  | validate (left : PQPTree)
  | tableScan (left_column_id : Nat) (condition : PredicateCondition)
      (right_parameter : AllParameterVariant) (left : PQPTree)
  | other0
  | other1 (left : PQPTree)
  | other2 (left : PQPTree) (right : PQPTree)
deriving DecidableEq, Repr

/-- Children pushed for non-scan nodes (`input_left()` then
`input_right()`); the walker never descends below a `TableScan`. -/
def PQPTree.children : PQPTree → List PQPTree
  | .getTable _ => []
  | .validate l => [l]
  | .tableScan _ _ _ _ => []
  | .other0 => []
  | .other1 l => [l]
  | .other2 l r => [l, r]

def PQPTree.size : PQPTree → Nat
  | .getTable _ => 1
  | .validate l => 1 + l.size
  | .tableScan _ _ _ l => 1 + l.size
  | .other0 => 1
  | .other1 l => 1 + l.size
  | .other2 l r => 1 + l.size + r.size

def pqpQueueSize (queue : List PQPTree) : Nat :=
  (queue.map PQPTree.size).sum

/-- The work-list loop of `BaseIndexEvaluator::_inspect_pqp_operator`
(tuning/index revision).  A `TableScan` whose left input is a `Validate`
trips `DebugAssert(... == nullptr, "Validation nodes are not supported...")`;
a scan over a `GetTable` emits a record (`boost::get` on `right_parameter`
may throw); any other scan input emits nothing; non-scan nodes push their
inputs. -/
def inspectPQPQueue (query_frequency : Nat) :
    List PQPTree → Nat → Except String (List AccessRecord)
  | _, 0 => .ok []
  | [], _ + 1 => .ok []
  | t :: queue, fuel + 1 =>
    match t with
    | .tableScan cid cond rp left =>
      match left with
      | .validate _ =>
        .error "Validation nodes are not supported. Please run the pipeline without MVCC columns."
      | .getTable tn =>
        match boostGetAllTypeVariant rp with
        | .error e => .error e
        | .ok v => do
          let rest ← inspectPQPQueue query_frequency queue fuel
          .ok ({ column_ref := ⟨tn, [cid]⟩,
                 condition := cond,
                 compare_value := v,
                 query_frequency := query_frequency } :: rest)
      | _ => inspectPQPQueue query_frequency queue fuel
    | _ => inspectPQPQueue query_frequency (queue ++ t.children) fuel

/-- Source `BaseIndexEvaluator::_inspect_pqp_operator`. -/
def inspect_pqp_operator (op : PQPTree) (query_frequency : Nat) :
    Except String (List AccessRecord) :=
  inspectPQPQueue query_frequency [op] op.size

/-- Whether the walker, following its own traversal (which does not descend
below scans), meets a `TableScan` whose left input is an MVCC `Validate`. -/
def containsScanOverValidate : PQPTree → Bool
  | .tableScan _ _ _ left =>
    match left with
    | .validate _ => true
    | _ => false
  | .validate l => containsScanOverValidate l
  | .other1 l => containsScanOverValidate l
  | .other2 l r => containsScanOverValidate l || containsScanOverValidate r
  | .getTable _ => false
  | .other0 => false

def exceptIsError : Except String (List AccessRecord) → Bool
  | .error _ => true
  | .ok _ => false

/-- A predicate node the walker silently skips: no column origin at all, or
an origin that is not a `StoredTable` node. -/
def benignPred : Option PredicateInfo → Bool
  | none => false
  | some info =>
    match info.column_origin with
    | none => true
    | some origin => decide (origin.node_type ≠ .StoredTable)

/-- Every `Predicate` node of the tree is benign (skipped without a record
and without an error). -/
def benignTree : LQPTree → Bool
  | .node0 ty p => ty ≠ .Predicate || benignPred p
  | .node1 ty p l => (ty ≠ .Predicate || benignPred p) && benignTree l
  | .node2 ty p l r =>
    (ty ≠ .Predicate || benignPred p) && benignTree l && benignTree r

/-- One entry of the GDFS cache's priority queue, as consumed by the
walker. -/
structure CacheEntry where
  key : String
  value : LQPTree
  frequency : Nat

/-- Source `_inspect_lqp_operator` over every cache entry in priority order,
concatenating the record buffer. -/
def inspectEntries : List CacheEntry → Except String (List AccessRecord)
  | [] => .ok []
  | e :: rest => do
    let r ← inspect_lqp_operator e.value e.frequency
    let rs ← inspectEntries rest
    .ok (r ++ rs)

/-- Source `BaseIndexEvaluator::_inspect_query_cache`: `none` models a cache whose
`dynamic_cast` to a GDFS cache fails (opaque cache) — the walker logs a
warning and returns with no records; an empty GDFS queue also logs a
warning.  The boolean records whether a warning was logged. -/
def inspect_query_cache (cache : Option (List CacheEntry)) :
    Except String (List AccessRecord × Bool) :=
  match cache with
  | none => .ok ([], true)
  | some entries => do
    let rs ← inspectEntries entries
    .ok (rs, entries.isEmpty)

/-- An existing index as reported by the catalog
(`_add_existing_indexes` + `_existing_memory_cost`). -/
structure ExistingIndex where
  column_ref : ColumnRef
  index_type : ColumnIndexType
  measured_cost : ℚ

/-- Source `_aggregate_access_records`' candidate set: the distinct column refs of
the access records, minus those already carrying an index
(`_new_indexes.erase`). -/
def aggregateNewIndexes (records : List AccessRecord)
    (existing : List ExistingIndex) : List ColumnRef :=
  ((records.map (·.column_ref)).dedup).filter fun c =>
    !(existing.any fun ei => ei.column_ref == c)

/-- The evaluations the pass hands to the selector for the existing
indexes: `exists = true`, measured memory cost, and `saved_work` looked up
in the aggregated map (single-column: the head of `column_ids`). -/
def choicesForExisting (existing : List ExistingIndex)
    (rowCount : String → ℚ)
    (matchRows : String → Nat → PredicateCondition → AllTypeVariant → ℚ)
    (records : List AccessRecord) : List IndexEvaluation :=
  existing.map fun ei =>
    { column := ⟨ei.column_ref.table_name, ei.column_ref.column_ids.headD 0⟩,
      desirablility := getSavedWork (processAllRecords rowCount matchRows records)
        ei.column_ref,
      index_exists := true,
      index_type := ei.index_type,
      memory_cost := ei.measured_cost }

def rcW : String → ℚ := fun _ => 100

def mrW : String → Nat → PredicateCondition → AllTypeVariant → ℚ := fun _ _ _ _ => 10

def recW : AccessRecord :=
  { column_ref := ⟨"t", [0]⟩, condition := .Equals,
    compare_value := .intVal 4, query_frequency := 2 }

/-! ### Theorems -/

lemma sacrificeWalk_spec (l : List IndexEvaluation) (b : Nat) (required : ℚ) :
    ∀ (fuel s : Nat) (obt sac : ℚ),
      s ≤ (sacrificeWalk l b required s obt sac fuel).2.2 ∧
      (sacrificeWalk l b required s obt sac fuel).1 =
        obt + costRange l s ((sacrificeWalk l b required s obt sac fuel).2.2 - s) ∧
      (sacrificeWalk l b required s obt sac fuel).2.1 =
        sac + workRange l s ((sacrificeWalk l b required s obt sac fuel).2.2 - s) := by
  intro fuel
  induction fuel with
  | zero =>
    intro s obt sac
    simp [sacrificeWalk, costRange, workRange]
  | succ fuel ih =>
    intro s obt sac
    by_cases hguard : obt < required ∧ s ≠ b
    · by_cases hex : (l.getD s default).index_exists
      · have hrec := ih (s + 1) (obt + (l.getD s default).memory_cost)
          (sac + (l.getD s default).desirablility)
        have hres : sacrificeWalk l b required s obt sac (fuel + 1) =
            sacrificeWalk l b required (s + 1) (obt + (l.getD s default).memory_cost)
              (sac + (l.getD s default).desirablility) fuel := by
          simp only [sacrificeWalk, if_pos hguard, if_pos hex]
        rw [hres]
        obtain ⟨hle, hcost, hwork⟩ := hrec
        refine ⟨Nat.le_trans (Nat.le_succ s) hle, ?_, ?_⟩
        · rw [hcost]
          have hn : (sacrificeWalk l b required (s + 1)
              (obt + (l.getD s default).memory_cost)
              (sac + (l.getD s default).desirablility) fuel).2.2 - s =
              ((sacrificeWalk l b required (s + 1)
                (obt + (l.getD s default).memory_cost)
                (sac + (l.getD s default).desirablility) fuel).2.2 - (s + 1)) + 1 := by
            omega
          rw [hn, costRange, if_pos hex]
          ring
        · rw [hwork]
          have hn : (sacrificeWalk l b required (s + 1)
              (obt + (l.getD s default).memory_cost)
              (sac + (l.getD s default).desirablility) fuel).2.2 - s =
              ((sacrificeWalk l b required (s + 1)
                (obt + (l.getD s default).memory_cost)
                (sac + (l.getD s default).desirablility) fuel).2.2 - (s + 1)) + 1 := by
            omega
          rw [hn, workRange, if_pos hex]
          ring
      · have hrec := ih (s + 1) obt sac
        have hres : sacrificeWalk l b required s obt sac (fuel + 1) =
            sacrificeWalk l b required (s + 1) obt sac fuel := by
          simp only [sacrificeWalk, if_pos hguard, if_neg hex]
        rw [hres]
        obtain ⟨hle, hcost, hwork⟩ := hrec
        refine ⟨Nat.le_trans (Nat.le_succ s) hle, ?_, ?_⟩
        · rw [hcost]
          have hn : (sacrificeWalk l b required (s + 1) obt sac fuel).2.2 - s =
              ((sacrificeWalk l b required (s + 1) obt sac fuel).2.2 - (s + 1)) + 1 := by
            omega
          rw [hn, costRange, if_neg hex]
          ring
        · rw [hwork]
          have hn : (sacrificeWalk l b required (s + 1) obt sac fuel).2.2 - s =
              ((sacrificeWalk l b required (s + 1) obt sac fuel).2.2 - (s + 1)) + 1 := by
            omega
          rw [hn, workRange, if_neg hex]
          ring
    · have hres : sacrificeWalk l b required s obt sac (fuel + 1) = (obt, sac, s) := by
        simp only [sacrificeWalk, if_neg hguard]
      rw [hres]
      simp [costRange, workRange]

lemma dropsRange_memDelta_sum (l : List IndexEvaluation) :
    ∀ n a, ((dropsRange l a n).map opMemDelta).sum = -costRange l a n := by
  intro n
  induction n with
  | zero => intro a; simp [dropsRange, costRange]
  | succ n ih =>
    intro a
    by_cases hex : (l.getD a default).index_exists
    · simp only [dropsRange, if_pos hex, costRange, List.map_cons, List.sum_cons, ih,
        opMemDelta, dropRec]
      simp
      ring
    · simp only [dropsRange, if_neg hex, costRange, ih]
      simp

lemma dropsRange_workDelta_sum (l : List IndexEvaluation) :
    ∀ n a, ((dropsRange l a n).map opWorkDelta).sum = -workRange l a n := by
  intro n
  induction n with
  | zero => intro a; simp [dropsRange, workRange]
  | succ n ih =>
    intro a
    by_cases hex : (l.getD a default).index_exists
    · simp only [dropsRange, if_pos hex, workRange, List.map_cons, List.sum_cons, ih,
        opWorkDelta, dropRec]
      simp
      ring
    · simp only [dropsRange, if_neg hex, workRange, ih]
      simp

lemma getD_mem_or_default (l : List IndexEvaluation) (i : Nat) :
    l.getD i default ∈ l ∨ l.getD i default = default := by
  induction l generalizing i with
  | nil => right; cases i <;> rfl
  | cons a t ih =>
    cases i with
    | zero => left; simp [List.getD]
    | succ n =>
      rcases ih n with h | h
      · left; exact List.mem_cons_of_mem a h
      · right; simpa [List.getD] using h

lemma getD_cost_nonneg {l : List IndexEvaluation}
    (hcost : ∀ e ∈ l, 0 ≤ e.memory_cost) (i : Nat) :
    0 ≤ (l.getD i default).memory_cost := by
  rcases getD_mem_or_default l i with h | h
  · exact hcost _ h
  · rw [h]; norm_num [default]

lemma costRange_nonneg {l : List IndexEvaluation}
    (hcost : ∀ e ∈ l, 0 ≤ e.memory_cost) :
    ∀ n a, 0 ≤ costRange l a n := by
  intro n
  induction n with
  | zero => intro a; simp [costRange]
  | succ n ih =>
    intro a
    rw [costRange]
    have h1 : 0 ≤ (if (l.getD a default).index_exists then
        (l.getD a default).memory_cost else 0) := by
      split
      · exact getD_cost_nonneg hcost a
      · exact le_refl 0
    linarith [ih (a + 1)]

lemma memoryAfter_nil (mem : ℚ) : memoryAfter mem [] = mem := by
  simp [memoryAfter]

lemma memoryAfter_cons (mem : ℚ) (o : PlannedOp) (ops : List PlannedOp) :
    memoryAfter mem (o :: ops) = memoryAfter (mem + opMemDelta o) ops := by
  simp [memoryAfter]; ring

lemma memoryAfter_append (mem : ℚ) (xs ys : List PlannedOp) :
    memoryAfter mem (xs ++ ys) = memoryAfter (memoryAfter mem xs) ys := by
  induction xs generalizing mem with
  | nil => simp [memoryAfter_nil]
  | cons o t ih => rw [List.cons_append, memoryAfter_cons, memoryAfter_cons, ih]

lemma opsRespectBudget_append (budget mem : ℚ) (xs ys : List PlannedOp) :
    opsRespectBudget budget mem (xs ++ ys) =
      (opsRespectBudget budget mem xs && opsRespectBudget budget (memoryAfter mem xs) ys) := by
  induction xs generalizing mem with
  | nil => simp [opsRespectBudget, memoryAfter_nil]
  | cons o t ih =>
    rw [List.cons_append]
    simp only [opsRespectBudget, memoryAfter_cons, ih, Bool.and_assoc]

lemma memoryAfter_dropsRange (l : List IndexEvaluation) (mem : ℚ) (a n : Nat) :
    memoryAfter mem (dropsRange l a n) = mem - costRange l a n := by
  rw [memoryAfter, dropsRange_memDelta_sum]
  ring

lemma opsRespectBudget_dropsRange {l : List IndexEvaluation} {budget : ℚ}
    (hcost : ∀ e ∈ l, 0 ≤ e.memory_cost) :
    ∀ (n a : Nat) (mem : ℚ), mem ≤ budget →
      opsRespectBudget budget mem (dropsRange l a n) = true := by
  intro n
  induction n with
  | zero => intro a mem _; simp [dropsRange, opsRespectBudget]
  | succ n ih =>
    intro a mem hmem
    by_cases hex : (l.getD a default).index_exists
    · rw [dropsRange, if_pos hex]
      have hd : opMemDelta (dropRec (l.getD a default) a) = -(l.getD a default).memory_cost := by
        simp [opMemDelta, dropRec]
      have hnn := getD_cost_nonneg hcost a
      rw [opsRespectBudget, hd]
      have h1 : mem + -(l.getD a default).memory_cost ≤ budget := by linarith
      rw [Bool.and_eq_true, decide_eq_true_iff]
      exact ⟨h1, ih (a + 1) _ h1⟩
    · rw [dropsRange, if_neg hex]
      exact ih (a + 1) mem hmem

lemma opsRespectBudget_memoryAfter {budget : ℚ} :
    ∀ (ops : List PlannedOp) (mem : ℚ), mem ≤ budget →
      opsRespectBudget budget mem ops = true → memoryAfter mem ops ≤ budget := by
  intro ops
  induction ops with
  | nil => intro mem hmem _; simpa [memoryAfter_nil] using hmem
  | cons o t ih =>
    intro mem hmem h
    rw [opsRespectBudget, Bool.and_eq_true, decide_eq_true_iff] at h
    rw [memoryAfter_cons]
    exact ih _ h.1 h.2

/-- Main loop invariant for budget safety: if all memory costs are
nonnegative and the running `memory_consumption` is within budget, then
every operation the loop emits keeps the configuration within budget. -/
lemma selectLoop_budget_safe {l : List IndexEvaluation} {budget : ℚ}
    (hcost : ∀ e ∈ l, 0 ≤ e.memory_cost) :
    ∀ (fuel w b : Nat) (mem : ℚ), mem ≤ budget →
      opsRespectBudget budget mem (selectLoop l budget w b mem fuel) = true := by
  intro fuel
  induction fuel with
  | zero => intro w b mem hmem; simp [selectLoop, opsRespectBudget]
  | succ fuel ih =>
    intro w b mem hmem
    rw [selectLoop]
    by_cases hbw : b < w
    · rw [if_pos hbw]; simp [opsRespectBudget]
    rw [if_neg hbw]
    simp only []
    by_cases hneg : (l.getD w default).desirablility < 0 ∧
        -(l.getD w default).desirablility > (l.getD b default).desirablility
    · rw [if_pos hneg]
      by_cases hex : (l.getD w default).index_exists
      · rw [if_pos hex]
        have hd : opMemDelta (dropRec (l.getD w default) w) =
            -(l.getD w default).memory_cost := by simp [opMemDelta, dropRec]
        have hnn := getD_cost_nonneg hcost w
        rw [opsRespectBudget, hd, Bool.and_eq_true, decide_eq_true_iff]
        have h1 : mem + -(l.getD w default).memory_cost ≤ budget := by linarith
        refine ⟨h1, ?_⟩
        have h2 : mem + -(l.getD w default).memory_cost = mem - (l.getD w default).memory_cost := by
          ring
        rw [h2]
        exact ih (w + 1) b _ (by linarith)
      · rw [if_neg hex]
        exact ih (w + 1) b mem hmem
    rw [if_neg hneg]
    by_cases hbex : (l.getD b default).index_exists
    · rw [if_pos hbex]
      by_cases hb0 : b = 0
      · rw [if_pos hb0]; simp [opsRespectBudget]
      · rw [if_neg hb0]; exact ih w (b - 1) mem hmem
    rw [if_neg hbex]
    set best := l.getD b default with hbest
    set required := best.memory_cost + mem - budget with hreq
    set res := sacrificeWalk l b required w 0 0 (b - w) with hres
    by_cases hacc : required ≤ res.1 ∧ res.2.1 ≤ best.desirablility
    · rw [if_pos hacc]
      obtain ⟨hsle, hobt, hsac⟩ := sacrificeWalk_spec l b required (b - w) w 0 0
      rw [opsRespectBudget_append]
      rw [Bool.and_eq_true]
      constructor
      · exact opsRespectBudget_dropsRange hcost _ _ _ hmem
      · rw [memoryAfter_dropsRange]
        have hcr : costRange l w (res.2.2 - w) = res.1 := by
          rw [hres, hobt, zero_add]
        rw [hcr]
        have hcd : opMemDelta (createRec best b) = best.memory_cost := by
          simp [opMemDelta, createRec]
        rw [opsRespectBudget, hcd, Bool.and_eq_true, decide_eq_true_iff]
        have hafter : mem - res.1 + best.memory_cost ≤ budget := by
          have := hacc.1
          rw [hreq] at this
          linarith
        refine ⟨by linarith, ?_⟩
        by_cases hb0 : b = 0
        · rw [if_pos hb0]; simp [opsRespectBudget]
        · rw [if_neg hb0]
          have harg : mem - res.1 + best.memory_cost = mem - res.1 + best.memory_cost := rfl
          exact ih res.2.2 (b - 1) _ hafter
    · rw [if_neg hacc]
      by_cases hb0 : b = 0
      · rw [if_pos hb0]; simp [opsRespectBudget]
      · rw [if_neg hb0]; exact ih w (b - 1) mem hmem

/-- Main loop invariant for monotonicity: the loop's operations always have
a nonnegative total saved-work delta. -/
lemma selectLoop_work_nonneg (l : List IndexEvaluation) (budget : ℚ) :
    ∀ (fuel w b : Nat) (mem : ℚ),
      0 ≤ ((selectLoop l budget w b mem fuel).map opWorkDelta).sum := by
  intro fuel
  induction fuel with
  | zero => intro w b mem; simp [selectLoop]
  | succ fuel ih =>
    intro w b mem
    rw [selectLoop]
    by_cases hbw : b < w
    · rw [if_pos hbw]; simp
    rw [if_neg hbw]
    simp only []
    by_cases hneg : (l.getD w default).desirablility < 0 ∧
        -(l.getD w default).desirablility > (l.getD b default).desirablility
    · rw [if_pos hneg]
      by_cases hex : (l.getD w default).index_exists
      · rw [if_pos hex]
        rw [List.map_cons, List.sum_cons]
        have hd : opWorkDelta (dropRec (l.getD w default) w) =
            -(l.getD w default).desirablility := by simp [opWorkDelta, dropRec]
        rw [hd]
        have := ih (w + 1) b (mem - (l.getD w default).memory_cost)
        linarith [hneg.1]
      · rw [if_neg hex]
        exact ih (w + 1) b mem
    rw [if_neg hneg]
    by_cases hbex : (l.getD b default).index_exists
    · rw [if_pos hbex]
      by_cases hb0 : b = 0
      · rw [if_pos hb0]; simp
      · rw [if_neg hb0]; exact ih w (b - 1) mem
    rw [if_neg hbex]
    set best := l.getD b default with hbest
    set required := best.memory_cost + mem - budget with hreq
    set res := sacrificeWalk l b required w 0 0 (b - w) with hres
    by_cases hacc : required ≤ res.1 ∧ res.2.1 ≤ best.desirablility
    · rw [if_pos hacc]
      obtain ⟨hsle, hobt, hsac⟩ := sacrificeWalk_spec l b required (b - w) w 0 0
      rw [List.map_append, List.sum_append, List.map_cons, List.sum_cons]
      rw [dropsRange_workDelta_sum]
      have hwr : workRange l w (res.2.2 - w) = res.2.1 := by
        rw [hres, hsac, zero_add]
      rw [hwr]
      have hcd : opWorkDelta (createRec best b) = best.desirablility := by
        simp [opWorkDelta, createRec]
      rw [hcd]
      have hrest : 0 ≤ ((if b = 0 then []
          else selectLoop l budget res.2.2 (b - 1)
            (mem - res.1 + best.memory_cost) fuel).map opWorkDelta).sum := by
        by_cases hb0 : b = 0
        · rw [if_pos hb0]; simp
        · rw [if_neg hb0]; exact ih res.2.2 (b - 1) _
      have := hacc.2
      linarith
    · rw [if_neg hacc]
      by_cases hb0 : b = 0
      · rw [if_pos hb0]; simp
      · rw [if_neg hb0]; exact ih w (b - 1) mem

lemma memoryInUse_eq_sum (l : List IndexEvaluation) :
    memoryInUse l = (l.map fun e => if e.index_exists then e.memory_cost else 0).sum := by
  induction l with
  | nil => simp [memoryInUse]
  | cons e t ih => simp [memoryInUse, ih]

lemma existingSavedWork_eq_sum (l : List IndexEvaluation) :
    existingSavedWork l =
      (l.map fun e => if e.index_exists then e.desirablility else 0).sum := by
  induction l with
  | nil => simp [existingSavedWork]
  | cons e t ih => simp [existingSavedWork, ih]

lemma sortEvaluations_perm (l : List IndexEvaluation) :
    List.Perm (sortEvaluations l) l :=
  List.perm_insertionSort evalLE l

lemma memoryInUse_sortEvaluations (l : List IndexEvaluation) :
    memoryInUse (sortEvaluations l) = memoryInUse l := by
  rw [memoryInUse_eq_sum, memoryInUse_eq_sum]
  exact ((sortEvaluations_perm l).map _).sum_eq

/-- C1, counterexample.  The claim asserts that for **every** input vector
and budget the final configuration's total memory is at most
`memory_budget`.  With a single already-existing index of measured cost
100 MiB and a budget of 50 MiB, `select_indices` emits no operation
(the index has positive desirability, so it is neither the profitable-drop
branch nor a candidate to create), leaving the final configuration at
100 MiB > 50 MiB.  The claim fails whenever the pre-pass configuration
already exceeds the budget. -/
theorem select_indices_budget_counterexample :
    selectIndicesRec [mkEval "t" 0 1 true 100] 50 = [] ∧
      ¬ memoryAfter (memoryInUse [mkEval "t" 0 1 true 100])
          (selectIndicesRec [mkEval "t" 0 1 true 100] 50) ≤ 50 := by
  norm_num [selectIndicesRec, sortEvaluations, List.insertionSort, List.orderedInsert,
    memoryInUse, memoryAfter, selectLoop, sacrificeWalk, dropsRange, dropRec, createRec,
    mkEval, evalLE, opMemDelta]

/-- C1, amended: provided every choice's `memory_cost` is nonnegative
(spec data-model invariant 2) and the pre-pass configuration's total index
memory is within `memory_budget`, the operation sequence returned by
`select_indices`, applied in order, keeps total index memory at most
`memory_budget` after every operation completes, and in particular the
final configuration's total memory is at most `memory_budget`. -/
theorem select_indices_budget_safe (evaluations : List IndexEvaluation)
    (memory_budget : ℚ)
    (hcost : ∀ e ∈ evaluations, 0 ≤ e.memory_cost)
    (hinit : memoryInUse evaluations ≤ memory_budget) :
    opsRespectBudget memory_budget (memoryInUse evaluations)
        (selectIndicesRec evaluations memory_budget) = true ∧
      memoryAfter (memoryInUse evaluations)
        (selectIndicesRec evaluations memory_budget) ≤ memory_budget := by
  have hmain : opsRespectBudget memory_budget (memoryInUse evaluations)
      (selectIndicesRec evaluations memory_budget) = true := by
    rw [selectIndicesRec]
    by_cases hlen : evaluations.length = 0
    · rw [if_pos hlen]; simp [opsRespectBudget]
    · rw [if_neg hlen]
      simp only []
      have hcost' : ∀ e ∈ sortEvaluations evaluations, 0 ≤ e.memory_cost := fun e he =>
        hcost e ((sortEvaluations_perm evaluations).mem_iff.mp he)
      have hm := memoryInUse_sortEvaluations evaluations
      rw [← hm] at hinit ⊢
      exact selectLoop_budget_safe hcost' _ _ _ _ hinit
  exact ⟨hmain, opsRespectBudget_memoryAfter _ _ hinit hmain⟩

/-- Witness for C1 (amended): a concrete run in which an existing
zero-benefit index is dropped; the budget is respected after each
operation. -/
theorem select_indices_budget_safe_witness :
    opsRespectBudget 50 (memoryInUse [mkEval "t" 0 (-1) true 10])
        (selectIndicesRec [mkEval "t" 0 (-1) true 10] 50) = true ∧
      memoryAfter (memoryInUse [mkEval "t" 0 (-1) true 10])
        (selectIndicesRec [mkEval "t" 0 (-1) true 10] 50) ≤ 50 :=
  select_indices_budget_safe [mkEval "t" 0 (-1) true 10] 50
    (by norm_num [mkEval]) (by norm_num [memoryInUse, mkEval])

/-- C2: for every input vector of choices and every memory budget, applying
the operations returned by `select_indices` yields a live index set whose
total `saved_work` is at least the total `saved_work` of the initial live
set (the `exists == true` choices).  Each profitable-drop step removes an
index of negative desirability, and each accepted swap sacrifices at most
the desirability of the index it creates. -/
theorem select_indices_monotone (evaluations : List IndexEvaluation)
    (memory_budget : ℚ) :
    existingSavedWork evaluations ≤
      savedWorkAfter (existingSavedWork evaluations)
        (selectIndicesRec evaluations memory_budget) := by
  rw [savedWorkAfter]
  have h : 0 ≤ ((selectIndicesRec evaluations memory_budget).map opWorkDelta).sum := by
    rw [selectIndicesRec]
    by_cases hlen : evaluations.length = 0
    · rw [if_pos hlen]; simp
    · rw [if_neg hlen]
      simp only []
      exact selectLoop_work_nonneg _ _ _ _ _ _
  linarith

lemma dropsRange_mem (l : List IndexEvaluation) :
    ∀ (n a : Nat) (o : PlannedOp), o ∈ dropsRange l a n →
      o.op.create = false ∧ a ≤ o.pos ∧ o.pos < a + n := by
  intro n
  induction n with
  | zero => intro a o h; simp [dropsRange] at h
  | succ n ih =>
    intro a o h
    by_cases hex : (l.getD a default).index_exists
    · rw [dropsRange, if_pos hex] at h
      rcases List.mem_cons.mp h with h | h
      · subst h; refine ⟨rfl, le_refl a, ?_⟩; simp only [dropRec]; omega
      · obtain ⟨h1, h2, h3⟩ := ih (a + 1) o h
        exact ⟨h1, by omega, by omega⟩
    · rw [dropsRange, if_neg hex] at h
      obtain ⟨h1, h2, h3⟩ := ih (a + 1) o h
      exact ⟨h1, by omega, by omega⟩

lemma dropsRange_positions_pairwise (l : List IndexEvaluation) :
    ∀ (n a : Nat), List.Pairwise (· < ·) (dropPositions (dropsRange l a n)) := by
  intro n
  induction n with
  | zero => intro a; simp [dropsRange, dropPositions]
  | succ n ih =>
    intro a
    by_cases hex : (l.getD a default).index_exists
    · rw [dropsRange, if_pos hex]
      have hpos : dropPositions (dropRec (l.getD a default) a :: dropsRange l (a + 1) n) =
          a :: dropPositions (dropsRange l (a + 1) n) := by
        simp [dropPositions, dropRec]
      rw [hpos]
      refine List.pairwise_cons.mpr ⟨?_, ih (a + 1)⟩
      intro q hq
      simp only [dropPositions, List.mem_map, List.mem_filter] at hq
      obtain ⟨o, ⟨ho, _⟩, hqo⟩ := hq
      have := (dropsRange_mem l n (a + 1) o ho).2.1
      omega
    · rw [dropsRange, if_neg hex]
      exact ih (a + 1)

/-- Loop invariant: drops are emitted at strictly increasing sorted-vector
positions (all at least the worst pointer), creates at strictly decreasing
positions (all at most the best pointer). -/
lemma selectLoop_positions (l : List IndexEvaluation) (budget : ℚ) :
    ∀ (fuel w b : Nat) (mem : ℚ),
      (∀ o ∈ selectLoop l budget w b mem fuel,
        (o.op.create = false → w ≤ o.pos) ∧ (o.op.create = true → o.pos ≤ b)) ∧
      List.Pairwise (· < ·) (dropPositions (selectLoop l budget w b mem fuel)) ∧
      List.Pairwise (fun p q => q < p) (createPositions (selectLoop l budget w b mem fuel)) := by
  intro fuel
  induction fuel with
  | zero => intro w b mem; simp [selectLoop, dropPositions, createPositions]
  | succ fuel ih =>
    intro w b mem
    rw [selectLoop]
    by_cases hbw : b < w
    · rw [if_pos hbw]; simp [dropPositions, createPositions]
    rw [if_neg hbw]
    simp only []
    by_cases hneg : (l.getD w default).desirablility < 0 ∧
        -(l.getD w default).desirablility > (l.getD b default).desirablility
    · rw [if_pos hneg]
      by_cases hex : (l.getD w default).index_exists
      · rw [if_pos hex]
        obtain ⟨ihb, ihd, ihc⟩ := ih (w + 1) b (mem - (l.getD w default).memory_cost)
        refine ⟨?_, ?_, ?_⟩
        · intro o ho
          rcases List.mem_cons.mp ho with h | h
          · subst h
            exact ⟨fun _ => le_refl w, fun hc => by simp [dropRec] at hc⟩
          · obtain ⟨h1, h2⟩ := ihb o h
            exact ⟨fun hc => Nat.le_trans (Nat.le_succ w) (h1 hc), h2⟩
        · have hpos : dropPositions (dropRec (l.getD w default) w ::
              selectLoop l budget (w + 1) b (mem - (l.getD w default).memory_cost) fuel) =
              w :: dropPositions (selectLoop l budget (w + 1) b
                (mem - (l.getD w default).memory_cost) fuel) := by
            simp [dropPositions, dropRec]
          rw [hpos]
          refine List.pairwise_cons.mpr ⟨?_, ihd⟩
          intro q hq
          simp only [dropPositions, List.mem_map, List.mem_filter] at hq
          obtain ⟨o, ⟨ho, hoc⟩, hqo⟩ := hq
          have := (ihb o ho).1 (by simpa using hoc)
          omega
        · have hpos : createPositions (dropRec (l.getD w default) w ::
              selectLoop l budget (w + 1) b (mem - (l.getD w default).memory_cost) fuel) =
              createPositions (selectLoop l budget (w + 1) b
                (mem - (l.getD w default).memory_cost) fuel) := by
            simp [createPositions, dropRec]
          rw [hpos]
          exact ihc
      · rw [if_neg hex]
        obtain ⟨ihb, ihd, ihc⟩ := ih (w + 1) b mem
        refine ⟨?_, ihd, ihc⟩
        intro o ho
        obtain ⟨h1, h2⟩ := ihb o ho
        exact ⟨fun hc => Nat.le_trans (Nat.le_succ w) (h1 hc), h2⟩
    rw [if_neg hneg]
    by_cases hbex : (l.getD b default).index_exists
    · rw [if_pos hbex]
      by_cases hb0 : b = 0
      · rw [if_pos hb0]; simp [dropPositions, createPositions]
      · rw [if_neg hb0]
        obtain ⟨ihb, ihd, ihc⟩ := ih w (b - 1) mem
        refine ⟨?_, ihd, ihc⟩
        intro o ho
        obtain ⟨h1, h2⟩ := ihb o ho
        exact ⟨h1, fun hc => by have := h2 hc; omega⟩
    rw [if_neg hbex]
    set best := l.getD b default with hbest
    set required := best.memory_cost + mem - budget with hreq
    set res := sacrificeWalk l b required w 0 0 (b - w) with hres
    by_cases hacc : required ≤ res.1 ∧ res.2.1 ≤ best.desirablility
    · rw [if_pos hacc]
      have hsle : w ≤ res.2.2 := by
        rw [hres]; exact (sacrificeWalk_spec l b required (b - w) w 0 0).1
      have hrest : ∀ o ∈ (if b = 0 then []
          else selectLoop l budget res.2.2 (b - 1)
            (mem - res.1 + best.memory_cost) fuel),
          (o.op.create = false → res.2.2 ≤ o.pos) ∧ (o.op.create = true → o.pos ≤ b - 1) := by
        by_cases hb0 : b = 0
        · rw [if_pos hb0]; intro o ho; simp at ho
        · rw [if_neg hb0]
          exact (ih res.2.2 (b - 1) (mem - res.1 + best.memory_cost)).1
      have hrestd : List.Pairwise (· < ·) (dropPositions (if b = 0 then []
          else selectLoop l budget res.2.2 (b - 1)
            (mem - res.1 + best.memory_cost) fuel)) := by
        by_cases hb0 : b = 0
        · rw [if_pos hb0]; simp [dropPositions]
        · rw [if_neg hb0]
          exact (ih res.2.2 (b - 1) (mem - res.1 + best.memory_cost)).2.1
      have hrestc : List.Pairwise (fun p q => q < p) (createPositions (if b = 0 then []
          else selectLoop l budget res.2.2 (b - 1)
            (mem - res.1 + best.memory_cost) fuel)) := by
        by_cases hb0 : b = 0
        · rw [if_pos hb0]; simp [createPositions]
        · rw [if_neg hb0]
          exact (ih res.2.2 (b - 1) (mem - res.1 + best.memory_cost)).2.2
      refine ⟨?_, ?_, ?_⟩
      · intro o ho
        rcases List.mem_append.mp ho with h | h
        · obtain ⟨h1, h2, h3⟩ := dropsRange_mem l (res.2.2 - w) w o h
          refine ⟨fun _ => h2, fun hc => ?_⟩
          rw [h1] at hc; exact absurd hc (by simp)
        · rcases List.mem_cons.mp h with h | h
          · subst h
            refine ⟨fun hc => by simp [createRec] at hc, fun _ => ?_⟩
            simp [createRec]
          · obtain ⟨h1, h2⟩ := hrest o h
            exact ⟨fun hc => Nat.le_trans hsle (h1 hc), fun hc => by have := h2 hc; omega⟩
      · have hsplit : dropPositions (dropsRange l w (res.2.2 - w) ++
            createRec best b :: (if b = 0 then []
              else selectLoop l budget res.2.2 (b - 1)
                (mem - res.1 + best.memory_cost) fuel)) =
            dropPositions (dropsRange l w (res.2.2 - w)) ++
              dropPositions (if b = 0 then []
                else selectLoop l budget res.2.2 (b - 1)
                  (mem - res.1 + best.memory_cost) fuel) := by
          simp [dropPositions, createRec, List.filter_append]
        rw [hsplit]
        rw [List.pairwise_append]
        refine ⟨dropsRange_positions_pairwise l _ w, hrestd, ?_⟩
        intro x hx y hy
        simp only [dropPositions, List.mem_map, List.mem_filter] at hx hy
        obtain ⟨o, ⟨ho, _⟩, hxo⟩ := hx
        obtain ⟨o2, ⟨ho2, ho2c⟩, hyo⟩ := hy
        have h3 := (dropsRange_mem l (res.2.2 - w) w o ho).2.2
        have h4 := (hrest o2 ho2).1 (by simpa using ho2c)
        omega
      · have hsplit : createPositions (dropsRange l w (res.2.2 - w) ++
            createRec best b :: (if b = 0 then []
              else selectLoop l budget res.2.2 (b - 1)
                (mem - res.1 + best.memory_cost) fuel)) =
            b :: createPositions (if b = 0 then []
              else selectLoop l budget res.2.2 (b - 1)
                (mem - res.1 + best.memory_cost) fuel) := by
          have hnone : createPositions (dropsRange l w (res.2.2 - w)) = [] := by
            simp only [createPositions, List.map_eq_nil_iff, List.filter_eq_nil_iff]
            intro o ho
            have := (dropsRange_mem l (res.2.2 - w) w o ho).1
            simp [this]
          simp only [createPositions, List.filter_append, List.map_append] at hnone ⊢
          rw [hnone]
          simp [createRec, createPositions]
        rw [hsplit]
        refine List.pairwise_cons.mpr ⟨?_, hrestc⟩
        intro q hq
        simp only [createPositions, List.mem_map, List.mem_filter] at hq
        obtain ⟨o, ⟨ho, hoc⟩, hqo⟩ := hq
        have hb0 : b ≠ 0 := by
          intro h
          rw [h, if_pos rfl] at ho
          simp at ho
        have := (hrest o ho).2 (by simpa using hoc)
        omega
    · rw [if_neg hacc]
      by_cases hb0 : b = 0
      · rw [if_pos hb0]; simp [dropPositions, createPositions]
      · rw [if_neg hb0]
        obtain ⟨ihb, ihd, ihc⟩ := ih w (b - 1) mem
        refine ⟨?_, ihd, ihc⟩
        intro o ho
        obtain ⟨h1, h2⟩ := ihb o ho
        exact ⟨h1, fun hc => by have := h2 hc; omega⟩

/-- C7, counterexample.  Two choices tied on `saved_work` and
`memory_cost` (input order: column 0, then column 1; both new, both
installable within the budget).  `select_indices` creates them walking the
best pointer backwards, so their creates come out in **reversed** input
order — the output is `[create col 1, create col 0]`, violating the claimed
stability even though the embedded sort is stable. -/
theorem select_indices_stability_counterexample :
    select_indices [mkEval "t" 0 1 false 5, mkEval "t" 1 1 false 5] 100 =
      [⟨"t", 1, true⟩, ⟨"t", 0, true⟩] := by
  norm_num [select_indices, selectIndicesRec, sortEvaluations, List.insertionSort,
    List.orderedInsert, memoryInUse, selectLoop, sacrificeWalk, dropsRange, dropRec,
    createRec, mkEval, evalLE]

/-- C7, amended: the selector's emission order is determined by sorted
position, not by input order.  Drop operations are emitted at strictly
increasing positions of the sorted evaluation vector, and create operations
at strictly decreasing positions; since `std::sort` gives no stability
guarantee, tied choices carry no input-order relationship at all, and two
tied creates are emitted in reverse sorted order. -/
theorem select_indices_emission_order (evaluations : List IndexEvaluation)
    (memory_budget : ℚ) :
    List.Pairwise (· < ·) (dropPositions (selectIndicesRec evaluations memory_budget)) ∧
      List.Pairwise (fun p q => q < p)
        (createPositions (selectIndicesRec evaluations memory_budget)) := by
  rw [selectIndicesRec]
  by_cases hlen : evaluations.length = 0
  · rw [if_pos hlen]; simp [dropPositions, createPositions]
  · rw [if_neg hlen]
    simp only []
    exact ⟨(selectLoop_positions _ _ _ _ _ _).2.1, (selectLoop_positions _ _ _ _ _ _).2.2⟩

lemma sortEvaluations_sorted (l : List IndexEvaluation) :
    List.Sorted evalLE (sortEvaluations l) :=
  List.sorted_insertionSort evalLE l

lemma getD_mem_of_lt {l : List IndexEvaluation} {i : Nat} (h : i < l.length) :
    l.getD i default ∈ l := by
  induction l generalizing i with
  | nil => simp at h
  | cons a t ih =>
    cases i with
    | zero => simp [List.getD]
    | succ n =>
      simp only [List.length_cons] at h
      exact List.mem_cons_of_mem a (ih (by omega))

lemma sorted_getD_le {l : List IndexEvaluation} (hsort : List.Sorted evalLE l)
    {i j : Nat} (hij : i ≤ j) (hj : j < l.length) :
    (l.getD i default).desirablility ≤ (l.getD j default).desirablility := by
  rcases Nat.lt_or_ge i j with hlt | hge
  · induction l generalizing i j with
    | nil => simp at hj
    | cons a t ih =>
      cases i with
      | zero =>
        cases j with
        | zero => omega
        | succ m =>
          have ha : ∀ e ∈ t, evalLE a e := (List.sorted_cons.mp hsort).1
          have hmem : t.getD m default ∈ t := by
            apply getD_mem_of_lt
            simp only [List.length_cons] at hj
            omega
          simpa [List.getD] using ha _ hmem
      | succ n =>
        cases j with
        | zero => omega
        | succ m =>
          have := ih (List.sorted_cons.mp hsort).2 (i := n) (j := m)
            (by omega) (by simpa using Nat.lt_of_succ_lt_succ hj) (by omega)
          simpa [List.getD] using this
  · have : i = j := by omega
    subst this
    exact le_refl _

/-- In the non-drop branches of the loop the best entry has nonnegative
desirability: were it negative, so were the worst entry's (sortedness), and
the profitable-drop branch would have fired. -/
lemma best_nonneg_of_not_drop {l : List IndexEvaluation}
    (hsort : List.Sorted evalLE l) {w b : Nat} (hwb : w ≤ b) (hb : b < l.length)
    (hneg : ¬((l.getD w default).desirablility < 0 ∧
      -(l.getD w default).desirablility > (l.getD b default).desirablility)) :
    0 ≤ (l.getD b default).desirablility := by
  by_contra hcon
  push_neg at hcon
  have hw := sorted_getD_le hsort hwb hb
  apply hneg
  constructor
  · linarith
  · linarith

lemma dropsRange_mem_of {l : List IndexEvaluation} :
    ∀ (n a p : Nat), a ≤ p → p < a + n → (l.getD p default).index_exists →
      dropRec (l.getD p default) p ∈ dropsRange l a n := by
  intro n
  induction n with
  | zero => intro a p h1 h2; omega
  | succ n ih =>
    intro a p h1 h2 hex
    by_cases hap : p = a
    · subst hap
      rw [dropsRange, if_pos hex]
      exact List.mem_cons_self _ _
    · have hmem := ih (a + 1) p (by omega) (by omega) hex
      by_cases haex : (l.getD a default).index_exists
      · rw [dropsRange, if_pos haex]
        exact List.mem_cons_of_mem _ hmem
      · rw [dropsRange, if_neg haex]
        exact hmem

/-- Completeness of dropping: with sufficient fuel (the entry points always
supply it), every existing entry with negative desirability between the two
pointers is eventually emitted as a drop.  While the best pointer rests on a
negative entry the profitable-drop branch keeps firing, so the best pointer
only ever passes nonnegative entries. -/
lemma selectLoop_drops_all_negative {l : List IndexEvaluation} {budget : ℚ}
    (hsort : List.Sorted evalLE l) :
    ∀ (fuel w b : Nat) (mem : ℚ), b + 1 - w ≤ fuel → b < l.length →
      ∀ p, w ≤ p → p ≤ b → (l.getD p default).index_exists →
        (l.getD p default).desirablility < 0 →
        dropRec (l.getD p default) p ∈ selectLoop l budget w b mem fuel := by
  intro fuel
  induction fuel with
  | zero => intro w b mem hfuel hb p hwp hpb _ _; omega
  | succ fuel ih =>
    intro w b mem hfuel hb p hwp hpb hex hdes
    rw [selectLoop]
    by_cases hbw : b < w
    · omega
    rw [if_neg hbw]
    simp only []
    by_cases hneg : (l.getD w default).desirablility < 0 ∧
        -(l.getD w default).desirablility > (l.getD b default).desirablility
    · rw [if_pos hneg]
      by_cases hwex : (l.getD w default).index_exists
      · rw [if_pos hwex]
        by_cases hpw : p = w
        · subst hpw
          exact List.mem_cons_self _ _
        · exact List.mem_cons_of_mem _
            (ih (w + 1) b _ (by omega) hb p (by omega) hpb hex hdes)
      · rw [if_neg hwex]
        have hpw : p ≠ w := fun h => hwex (h ▸ hex)
        exact ih (w + 1) b mem (by omega) hb p (by omega) hpb hex hdes
    rw [if_neg hneg]
    have hbnn : 0 ≤ (l.getD b default).desirablility :=
      best_nonneg_of_not_drop hsort (by omega) hb hneg
    have hpb' : p < b := by
      rcases Nat.lt_or_ge p b with h | h
      · exact h
      · have : p = b := by omega
        subst this
        linarith
    by_cases hbex : (l.getD b default).index_exists
    · rw [if_pos hbex]
      have hb0 : b ≠ 0 := by omega
      rw [if_neg hb0]
      exact ih w (b - 1) mem (by omega) (by omega) p hwp (by omega) hex hdes
    rw [if_neg hbex]
    set best := l.getD b default with hbest
    set required := best.memory_cost + mem - budget with hreq
    set res := sacrificeWalk l b required w 0 0 (b - w) with hres
    by_cases hacc : required ≤ res.1 ∧ res.2.1 ≤ best.desirablility
    · rw [if_pos hacc]
      have hsle : w ≤ res.2.2 := by
        rw [hres]; exact (sacrificeWalk_spec l b required (b - w) w 0 0).1
      by_cases hps : p < res.2.2
      · exact List.mem_append_left _
          (dropsRange_mem_of (res.2.2 - w) w p hwp (by omega) hex)
      · have hb0 : b ≠ 0 := by omega
        rw [if_neg hb0]
        refine List.mem_append_right _ (List.mem_cons_of_mem _ ?_)
        exact ih res.2.2 (b - 1) _ (by omega) (by omega) p (by omega) (by omega) hex hdes
    · rw [if_neg hacc]
      have hb0 : b ≠ 0 := by omega
      rw [if_neg hb0]
      exact ih w (b - 1) mem (by omega) (by omega) p hwp (by omega) hex hdes

/-- Provenance of creates: every create the loop emits is the `createRec`
of a not-yet-existing entry of the sorted vector with nonnegative
desirability. -/
lemma selectLoop_create_provenance {l : List IndexEvaluation} {budget : ℚ}
    (hsort : List.Sorted evalLE l) :
    ∀ (fuel w b : Nat) (mem : ℚ), b < l.length →
      ∀ o ∈ selectLoop l budget w b mem fuel, o.op.create = true →
        o = createRec (l.getD o.pos default) o.pos ∧ o.pos < l.length ∧
          (l.getD o.pos default).index_exists = false ∧
          0 ≤ (l.getD o.pos default).desirablility := by
  intro fuel
  induction fuel with
  | zero => intro w b mem hb o ho; simp [selectLoop] at ho
  | succ fuel ih =>
    intro w b mem hb o ho hoc
    rw [selectLoop] at ho
    by_cases hbw : b < w
    · rw [if_pos hbw] at ho; simp at ho
    rw [if_neg hbw] at ho
    simp only [] at ho
    by_cases hneg : (l.getD w default).desirablility < 0 ∧
        -(l.getD w default).desirablility > (l.getD b default).desirablility
    · rw [if_pos hneg] at ho
      by_cases hwex : (l.getD w default).index_exists
      · rw [if_pos hwex] at ho
        rcases List.mem_cons.mp ho with h | h
        · subst h; simp [dropRec] at hoc
        · exact ih (w + 1) b _ hb o h hoc
      · rw [if_neg hwex] at ho
        exact ih (w + 1) b mem hb o ho hoc
    rw [if_neg hneg] at ho
    have hbnn : 0 ≤ (l.getD b default).desirablility :=
      best_nonneg_of_not_drop hsort (by omega) hb hneg
    by_cases hbex : (l.getD b default).index_exists
    · rw [if_pos hbex] at ho
      by_cases hb0 : b = 0
      · rw [if_pos hb0] at ho; simp at ho
      · rw [if_neg hb0] at ho
        exact ih w (b - 1) mem (by omega) o ho hoc
    rw [if_neg hbex] at ho
    set best := l.getD b default with hbest
    set required := best.memory_cost + mem - budget with hreq
    set res := sacrificeWalk l b required w 0 0 (b - w) with hres
    by_cases hacc : required ≤ res.1 ∧ res.2.1 ≤ best.desirablility
    · rw [if_pos hacc] at ho
      rcases List.mem_append.mp ho with h | h
      · have := (dropsRange_mem l (res.2.2 - w) w o h).1
        rw [this] at hoc
        exact absurd hoc (by simp)
      · rcases List.mem_cons.mp h with h | h
        · subst h
          refine ⟨?_, ?_, ?_, ?_⟩
          · simp only [createRec]
          · simpa [createRec] using hb
          · show (l.getD b default).index_exists = false
            rw [← hbest]
            exact Bool.eq_false_iff.mpr hbex
          · show 0 ≤ (l.getD b default).desirablility
            rw [← hbest]
            exact hbnn
        · by_cases hb0 : b = 0
          · rw [if_pos hb0] at h; simp at h
          · rw [if_neg hb0] at h
            exact ih res.2.2 (b - 1) _ (by omega) o h hoc
    · rw [if_neg hacc] at ho
      by_cases hb0 : b = 0
      · rw [if_pos hb0] at ho; simp at ho
      · rw [if_neg hb0] at ho
        exact ih w (b - 1) mem (by omega) o ho hoc

lemma eq_of_same_column {l : List IndexEvaluation}
    (hnodup : List.Pairwise (fun a b => a.column ≠ b.column) l)
    {x y : IndexEvaluation} (hx : x ∈ l) (hy : y ∈ l)
    (hcol : x.column = y.column) : x = y := by
  induction l with
  | nil => simp at hx
  | cons a t ih =>
    have hpair := List.pairwise_cons.mp hnodup
    rcases List.mem_cons.mp hx with hxa | hxt
    · rcases List.mem_cons.mp hy with hya | hyt
      · rw [hxa, hya]
      · exact absurd (hxa ▸ hcol) (hpair.1 y hyt)
    · rcases List.mem_cons.mp hy with hya | hyt
      · exact absurd (hya ▸ hcol.symm) (hpair.1 x hxt)
      · exact ih hpair.2 hxt hyt

lemma getD_eq_get {l : List IndexEvaluation} {i : Nat} (h : i < l.length) :
    l.getD i default = l.get ⟨i, h⟩ := by
  induction l generalizing i with
  | nil => simp at h
  | cons a t ih =>
    cases i with
    | zero => simp [List.getD]
    | succ n => simpa [List.getD] using ih (by simpa using Nat.lt_of_succ_lt_succ h)

lemma mem_iff_exists_getD {l : List IndexEvaluation} {e : IndexEvaluation}
    (he : e ∈ l) : ∃ p, p < l.length ∧ l.getD p default = e := by
  induction l with
  | nil => simp at he
  | cons a t ih =>
    rcases List.mem_cons.mp he with h | h
    · exact ⟨0, by simp, by simp [List.getD, h.symm]⟩
    · obtain ⟨p, hp, hpe⟩ := ih h
      exact ⟨p + 1, by simpa using Nat.succ_lt_succ hp, by simpa [List.getD] using hpe⟩

/-- Every existing choice of the post-apply vector has nonnegative
desirability: negative existing choices were all dropped (and are absent),
and choices flipped to existing by a create had nonnegative desirability
when they were created. -/
lemma applySelectedOps_exists_nonneg (evaluations : List IndexEvaluation)
    (memory_budget : ℚ)
    (hnodup : List.Pairwise (fun a b => a.column ≠ b.column) evaluations) :
    ∀ e2 ∈ applySelectedOps evaluations (select_indices evaluations memory_budget),
      e2.index_exists = true → 0 ≤ e2.desirablility := by
  intro e2 he2 hex2
  rw [applySelectedOps] at he2
  obtain ⟨e, hef, heq⟩ := List.mem_map.mp he2
  obtain ⟨hemem, hnodrop⟩ := List.mem_filter.mp hef
  have hlen : evaluations.length ≠ 0 := by
    intro h
    rw [List.length_eq_zero.mp h] at hemem
    simp at hemem
  have hslen : (sortEvaluations evaluations).length = evaluations.length :=
    (sortEvaluations_perm evaluations).length_eq
  have hsort := sortEvaluations_sorted evaluations
  have hrec : selectIndicesRec evaluations memory_budget =
      selectLoop (sortEvaluations evaluations) memory_budget 0
        ((sortEvaluations evaluations).length - 1)
        (memoryInUse (sortEvaluations evaluations))
        (sortEvaluations evaluations).length := by
    rw [selectIndicesRec, if_neg hlen]
  by_cases hcreate : ((select_indices evaluations memory_budget).any fun o =>
      o.create && o.table_name == e.column.table_name &&
        o.column_id == e.column.column_id) = true
  · rw [if_pos hcreate] at heq
    obtain ⟨o, homem, hcond⟩ := List.any_eq_true.mp hcreate
    simp only [Bool.and_eq_true, beq_iff_eq] at hcond
    obtain ⟨⟨hocreate, hotn⟩, hocid⟩ := hcond
    obtain ⟨po, hpomem, hop⟩ := List.mem_map.mp homem
    rw [hrec] at hpomem
    have hpocreate : po.op.create = true := by rw [hop]; exact hocreate
    obtain ⟨hpoeq, hposlt, hentex, hentnn⟩ :=
      selectLoop_create_provenance hsort _ _ _ _ (by omega) po hpomem hpocreate
    set entry := (sortEvaluations evaluations).getD po.pos default with hentry
    have htn : o.table_name = entry.column.table_name := by
      rw [← hop, hpoeq]; rfl
    have hcid : o.column_id = entry.column.column_id := by
      rw [← hop, hpoeq]; rfl
    have hcol : e.column = entry.column := by
      have h1 : e.column.table_name = entry.column.table_name := hotn.symm.trans htn
      have h2 : e.column.column_id = entry.column.column_id := hocid.symm.trans hcid
      cases hce : e.column with
      | mk t1 c1 =>
        cases hcentry : entry.column with
        | mk t2 c2 =>
          rw [hce, hcentry] at h1 h2
          simp only [] at h1 h2
          rw [h1, h2]
    have hentmem : entry ∈ evaluations :=
      (sortEvaluations_perm evaluations).mem_iff.mp (getD_mem_of_lt hposlt)
    have hee : e = entry := eq_of_same_column hnodup hemem hentmem hcol
    have hdes : e2.desirablility = e.desirablility := by
      rw [← heq]
    rw [hdes, hee]
    exact hentnn
  · rw [if_neg hcreate] at heq
    subst heq
    by_contra hcon
    push_neg at hcon
    have hemem' : e ∈ sortEvaluations evaluations :=
      (sortEvaluations_perm evaluations).mem_iff.mpr hemem
    obtain ⟨p, hp, hpe⟩ := mem_iff_exists_getD hemem'
    have hdropmem : dropRec ((sortEvaluations evaluations).getD p default) p ∈
        selectIndicesRec evaluations memory_budget := by
      rw [hrec]
      apply selectLoop_drops_all_negative hsort _ _ _ _ (by omega) (by omega) p
        (by omega) (by omega)
      · rw [hpe]; exact hex2
      · rw [hpe]; exact hcon
    have hopmem : (dropRec e p).op ∈ select_indices evaluations memory_budget := by
      rw [select_indices]
      rw [hpe] at hdropmem
      exact List.mem_map.mpr ⟨_, hdropmem, rfl⟩
    have hany : ((select_indices evaluations memory_budget).any fun o =>
        !o.create && o.table_name == e.column.table_name &&
          o.column_id == e.column.column_id) = false := by
      simpa using hnodrop
    rw [List.any_eq_false] at hany
    have := hany _ hopmem
    simp [dropRec] at this

lemma dropsCovered_append_create (xs : List PlannedOp) (c : PlannedOp)
    (rest : List PlannedOp) (hc : c.op.create = true)
    (hrest : dropsCoveredByCreate rest = true) :
    dropsCoveredByCreate (xs ++ c :: rest) = true := by
  induction xs with
  | nil =>
    rw [List.nil_append, dropsCoveredByCreate, if_pos hc]
    exact hrest
  | cons x xs ih =>
    rw [List.cons_append, dropsCoveredByCreate]
    by_cases hx : x.op.create
    · rw [if_pos hx]; exact ih
    · rw [if_neg hx, Bool.and_eq_true]
      refine ⟨?_, ih⟩
      exact List.any_eq_true.mpr ⟨c, List.mem_append_right _ (List.mem_cons_self _ _), hc⟩

/-- If no existing entry has negative desirability, the loop emits drops
only inside accepted swaps, each followed by its create. -/
lemma selectLoop_dropsCovered {l : List IndexEvaluation} {budget : ℚ}
    (hpos : ∀ e ∈ l, e.index_exists = true → 0 ≤ e.desirablility) :
    ∀ (fuel w b : Nat) (mem : ℚ),
      dropsCoveredByCreate (selectLoop l budget w b mem fuel) = true := by
  intro fuel
  induction fuel with
  | zero => intro w b mem; simp [selectLoop, dropsCoveredByCreate]
  | succ fuel ih =>
    intro w b mem
    rw [selectLoop]
    by_cases hbw : b < w
    · rw [if_pos hbw]; rfl
    rw [if_neg hbw]
    simp only []
    by_cases hneg : (l.getD w default).desirablility < 0 ∧
        -(l.getD w default).desirablility > (l.getD b default).desirablility
    · rw [if_pos hneg]
      by_cases hwex : (l.getD w default).index_exists
      · exfalso
        rcases getD_mem_or_default l w with hmem | hdef
        · have := hpos _ hmem hwex
          linarith [hneg.1]
        · rw [hdef] at hwex
          simp [default] at hwex
      · rw [if_neg hwex]
        exact ih (w + 1) b mem
    rw [if_neg hneg]
    by_cases hbex : (l.getD b default).index_exists
    · rw [if_pos hbex]
      by_cases hb0 : b = 0
      · rw [if_pos hb0]; rfl
      · rw [if_neg hb0]; exact ih w (b - 1) mem
    rw [if_neg hbex]
    set best := l.getD b default with hbest
    set required := best.memory_cost + mem - budget with hreq
    set res := sacrificeWalk l b required w 0 0 (b - w) with hres
    by_cases hacc : required ≤ res.1 ∧ res.2.1 ≤ best.desirablility
    · rw [if_pos hacc]
      apply dropsCovered_append_create
      · rfl
      · by_cases hb0 : b = 0
        · rw [if_pos hb0]; rfl
        · rw [if_neg hb0]; exact ih res.2.2 (b - 1) _
    · rw [if_neg hacc]
      by_cases hb0 : b = 0
      · rw [if_pos hb0]; rfl
      · rw [if_neg hb0]; exact ih w (b - 1) mem

/-- C3, counterexample.  Input (budget 10 MiB): a free new candidate `X` on
column 0, an existing index on column 1 (desirability 2, 10 MiB), and a new
candidate on column 2 (desirability 9, 10 MiB).  The first pass swaps:
`[drop col 1, create col 2]`, jumping the worst pointer past `X` without
installing it.  On the resulting configuration a second pass is **not**
empty: it returns `[create col 0]`. -/
theorem select_indices_idempotence_counterexample :
    select_indices
        [mkEval "t" 0 1 false 0, mkEval "t" 1 2 true 10, mkEval "t" 2 9 false 10]
        10 = [⟨"t", 1, false⟩, ⟨"t", 2, true⟩] ∧
      select_indices
        (applySelectedOps
          [mkEval "t" 0 1 false 0, mkEval "t" 1 2 true 10, mkEval "t" 2 9 false 10]
          (select_indices
            [mkEval "t" 0 1 false 0, mkEval "t" 1 2 true 10, mkEval "t" 2 9 false 10]
            10))
        10 = [⟨"t", 0, true⟩] := by
  norm_num [select_indices, selectIndicesRec, sortEvaluations, List.insertionSort,
    List.orderedInsert, memoryInUse, selectLoop, sacrificeWalk, dropsRange, dropRec,
    createRec, mkEval, evalLE, applySelectedOps]

/-- C3, amended: a second call on the post-apply choice vector need not
return an empty operation list — it may still emit creates for candidates
the first pass skipped or rejected.  What does hold (for choices on
pairwise distinct columns): the first pass drops every existing index with
negative saved work, so in the second pass every drop is part of an
accepted swap, i.e. followed later by a create; in particular a second pass
that creates nothing also drops nothing. -/
theorem select_indices_second_pass (evaluations : List IndexEvaluation)
    (memory_budget : ℚ)
    (hnodup : List.Pairwise (fun a b => a.column ≠ b.column) evaluations) :
    dropsCoveredByCreate
      (selectIndicesRec
        (applySelectedOps evaluations (select_indices evaluations memory_budget))
        memory_budget) = true := by
  have hpos2 := applySelectedOps_exists_nonneg evaluations memory_budget hnodup
  rw [selectIndicesRec]
  by_cases hlen :
      (applySelectedOps evaluations (select_indices evaluations memory_budget)).length = 0
  · rw [if_pos hlen]; rfl
  · rw [if_neg hlen]
    simp only []
    apply selectLoop_dropsCovered
    intro e he hex
    exact hpos2 e ((sortEvaluations_perm _).mem_iff.mp he) hex

/-- Witness for C3 (amended), at the counterexample input: the second
pass's output `[create col 0]` indeed contains no uncovered drop. -/
theorem select_indices_second_pass_witness :
    dropsCoveredByCreate
      (selectIndicesRec
        (applySelectedOps
          [mkEval "t" 0 1 false 0, mkEval "t" 1 2 true 10, mkEval "t" 2 9 false 10]
          (select_indices
            [mkEval "t" 0 1 false 0, mkEval "t" 1 2 true 10, mkEval "t" 2 9 false 10]
            10))
        10) = true :=
  select_indices_second_pass
    [mkEval "t" 0 1 false 0, mkEval "t" 1 2 true 10, mkEval "t" 2 9 false 10]
    10 (by norm_num [mkEval])

lemma totalSavedWork_cons (rowCount : String → ℚ)
    (matchRows : String → Nat → PredicateCondition → AllTypeVariant → ℚ)
    (r : AccessRecord) (rest : List AccessRecord) (c : ColumnRef) :
    totalSavedWork rowCount matchRows (r :: rest) c =
      (if r.column_ref = c then recordSavedWork rowCount matchRows r else 0) +
        totalSavedWork rowCount matchRows rest c := by
  rw [totalSavedWork, totalSavedWork]
  by_cases hc : r.column_ref = c
  · rw [List.filter_cons_of_pos (by simpa using hc), List.map_cons, List.sum_cons,
      if_pos hc]
  · rw [List.filter_cons_of_neg (by simpa using hc), if_neg hc, zero_add]

lemma getSavedWork_foldl (rowCount : String → ℚ)
    (matchRows : String → Nat → PredicateCondition → AllTypeVariant → ℚ) :
    ∀ (records : List AccessRecord) (m : ColumnRef → Option ℚ) (c : ColumnRef),
      getSavedWork (records.foldl (processAccessRecord rowCount matchRows) m) c =
        getSavedWork m c + totalSavedWork rowCount matchRows records c := by
  intro records
  induction records with
  | nil =>
    intro m c
    simp [totalSavedWork]
  | cons r rest ih =>
    intro m c
    rw [List.foldl_cons, ih]
    have hstep : getSavedWork (processAccessRecord rowCount matchRows m r) c =
        getSavedWork m c +
          (if r.column_ref = c then recordSavedWork rowCount matchRows r else 0) := by
      simp only [processAccessRecord, getSavedWork]
      by_cases hc : c = r.column_ref
      · rw [if_pos hc, hc, if_pos rfl]
        cases hm : m r.column_ref with
        | none => simp [hm, recordSavedWork]
        | some v => simp [hm, recordSavedWork]
      · rw [if_neg hc, if_neg (fun h => hc h.symm)]
        ring
    have htot : totalSavedWork rowCount matchRows (r :: rest) c =
        (if r.column_ref = c then recordSavedWork rowCount matchRows r else 0) +
          totalSavedWork rowCount matchRows rest c := totalSavedWork_cons _ _ _ _ _
    rw [hstep, htot]
    ring

lemma recordSavedWork_double (rowCount : String → ℚ)
    (matchRows : String → Nat → PredicateCondition → AllTypeVariant → ℚ)
    (r : AccessRecord) :
    recordSavedWork rowCount matchRows (doubleFrequency r) =
      2 * recordSavedWork rowCount matchRows r := by
  rw [recordSavedWork, recordSavedWork, doubleFrequency]
  simp only []
  push_cast
  ring

lemma totalSavedWork_double (rowCount : String → ℚ)
    (matchRows : String → Nat → PredicateCondition → AllTypeVariant → ℚ)
    (records : List AccessRecord) (c : ColumnRef) :
    totalSavedWork rowCount matchRows (records.map doubleFrequency) c =
      2 * totalSavedWork rowCount matchRows records c := by
  induction records with
  | nil => simp [totalSavedWork]
  | cons r rest ih =>
    rw [List.map_cons, totalSavedWork_cons, totalSavedWork_cons, ih]
    have hcol : (doubleFrequency r).column_ref = r.column_ref := rfl
    rw [hcol]
    by_cases hc : r.column_ref = c
    · rw [if_pos hc, if_pos hc, recordSavedWork_double]
      ring
    · rw [if_neg hc, if_neg hc]
      ring

/-- C4: for every statistics oracle, record list and candidate column, the
aggregated `saved_work` equals the sum over the records with that
`column_ref` of `(row_count − predicted matching rows) · query_frequency`;
it is linear in frequency (doubling every record's frequency doubles it);
and a column with no matching records gets `saved_work = 0`. -/
theorem index_evaluator_saved_work (rowCount : String → ℚ)
    (matchRows : String → Nat → PredicateCondition → AllTypeVariant → ℚ)
    (records : List AccessRecord) (c : ColumnRef) :
    getSavedWork (processAllRecords rowCount matchRows records) c =
        totalSavedWork rowCount matchRows records c ∧
      getSavedWork (processAllRecords rowCount matchRows
          (records.map doubleFrequency)) c =
        2 * getSavedWork (processAllRecords rowCount matchRows records) c ∧
      ((∀ r ∈ records, r.column_ref ≠ c) →
        getSavedWork (processAllRecords rowCount matchRows records) c = 0) := by
  have hbase : ∀ recs, getSavedWork (processAllRecords rowCount matchRows recs) c =
      totalSavedWork rowCount matchRows recs c := by
    intro recs
    rw [processAllRecords, getSavedWork_foldl]
    simp [getSavedWork]
  refine ⟨hbase records, ?_, ?_⟩
  · rw [hbase, hbase, totalSavedWork_double]
  · intro hnone
    rw [hbase, totalSavedWork]
    have hfil : records.filter (fun r => r.column_ref = c) = [] := by
      rw [List.filter_eq_nil_iff]
      intro r hr
      simpa using hnone r hr
    rw [hfil]
    simp

/-- Witness for C4 at a concrete record (1,000,00-free small numbers):
`(100 − 10) · 2 = 180` for the matching column, `0` for a column never
accessed. -/
theorem index_evaluator_saved_work_witness :
    getSavedWork (processAllRecords rcW mrW [recW]) ⟨"t", [0]⟩ = 180 ∧
      getSavedWork (processAllRecords rcW mrW [recW]) ⟨"u", [1]⟩ = 0 := by
  constructor
  · have h := (index_evaluator_saved_work rcW mrW [recW] ⟨"t", [0]⟩).1
    rw [h]
    norm_num [totalSavedWork, recordSavedWork, rcW, mrW, recW]
  · exact (index_evaluator_saved_work rcW mrW [recW] ⟨"u", [1]⟩).2.2
      (by intro r hr; simp [recW] at hr; simp [hr])

/-- C5, counterexample.  Take the memory model that returns its
`chunk_distinct` argument, a table of 4 rows in 2 chunks, and a column with
`distinct_count = 1 < chunk_count = 2`.  The source computes
`chunk_distinct = 1 / 2 = 0` (machine integer division — truncation, no
rounding, no clamping), so the prediction is `0 · 2 = 0`; the claim's
formula (clamp to 1) yields `1 · 2 = 2`. -/
theorem predict_memory_cost_counterexample :
    predict_memory_cost (fun _ _ d _ => d)
        ⟨4, 2, fun _ => 1, fun _ => 4⟩
        { column_ref := ⟨"t", [0]⟩, saved_work := 0, index_exists := false,
          index_type := .GroupKey, memory_cost := 0 } = 0 ∧
      claimedPredictCost (fun _ _ d _ => d)
        ⟨4, 2, fun _ => 1, fun _ => 4⟩
        { column_ref := ⟨"t", [0]⟩, saved_work := 0, index_exists := false,
          index_type := .GroupKey, memory_cost := 0 } = 2 := by
  decide

lemma foldl_add_eq_sum (f : Nat → Nat) :
    ∀ (l : List Nat) (a : Nat), l.foldl (fun acc x => acc + f x) a = a + (l.map f).sum := by
  intro l
  induction l with
  | nil => intro a; simp
  | cons x t ih =>
    intro a
    rw [List.foldl_cons, ih, List.map_cons, List.sum_cons]
    omega

/-- C5, amended: for a candidate with `exists == false`, the predicted
memory cost is the per-chunk model value at
`chunk_rows = row_count / chunk_count` and
`chunk_distinct = distinct_count / chunk_count` — both machine integer
divisions, i.e. **floor**, not rounded, and with no clamping (a
`distinct_count` smaller than `chunk_count` yields `chunk_distinct = 0`) —
with `value_bytes` the sum of the column byte widths, multiplied by
`chunk_count`. -/
theorem index_evaluator_memory_prediction
    (model : ColumnIndexType → Nat → Nat → Nat → Nat) (tbl : TableModel)
    (measured : ColumnRef → ColumnIndexType → Nat) (choice : IndexChoice)
    (h : choice.index_exists = false) :
    evaluatedMemoryCost model tbl measured choice =
      model choice.index_type (tbl.row_count / tbl.chunk_count)
        (tbl.distinct_count (choice.column_ref.column_ids.headD 0) / tbl.chunk_count)
        ((choice.column_ref.column_ids.map tbl.column_byte_width).sum) *
        tbl.chunk_count := by
  rw [evaluatedMemoryCost, if_neg (by simp [h]), predict_memory_cost]
  rw [foldl_add_eq_sum, Nat.zero_add]

/-- Witness for C5 (amended): with `model t r d b = r + d + b`, 4 rows over
2 chunks, distinct 1 and width 4, the prediction is
`(2 + 0 + 4) · 2 = 12`. -/
theorem index_evaluator_memory_prediction_witness :
    evaluatedMemoryCost (fun _ r d b => r + d + b)
        ⟨4, 2, fun _ => 1, fun _ => 4⟩ (fun _ _ => 0)
        { column_ref := ⟨"t", [0]⟩, saved_work := 0, index_exists := false,
          index_type := .GroupKey, memory_cost := 0 } = 12 := by
  rw [index_evaluator_memory_prediction (fun _ r d b => r + d + b)
    ⟨4, 2, fun _ => 1, fun _ => 4⟩ (fun _ _ => 0)
    { column_ref := ⟨"t", [0]⟩, saved_work := 0, index_exists := false,
      index_type := .GroupKey, memory_cost := 0 } rfl]
  decide

/-- C10: the selector performs no invalidation-based suppression.  Two
choices on the same column with different index types (mutually exclusive
alternatives), both new, both affordable under the 100 MiB budget: the
output creates both — first the more desirable one, then, later in the same
pass, the invalidated alternative.  `IndexChoice::_invalidates` is
documented in the source as "currently unused and empty", and
`select_indices` never consults it. -/
theorem select_indices_invalidates_ignored :
    select_indices
      [{ column := ⟨"t", 0⟩, desirablility := 5, index_exists := false,
         index_type := .GroupKey, memory_cost := 40 },
       { column := ⟨"t", 0⟩, desirablility := 3, index_exists := false,
         index_type := .AdaptiveRadixTree, memory_cost := 40 }] 100 =
      [⟨"t", 0, true⟩, ⟨"t", 0, true⟩] := by
  norm_num [select_indices, selectIndicesRec, sortEvaluations, List.insertionSort,
    List.orderedInsert, memoryInUse, selectLoop, sacrificeWalk, dropsRange, dropRec,
    createRec, evalLE]

lemma PQPTree.size_pos (t : PQPTree) : 1 ≤ t.size := by
  cases t <;> simp only [PQPTree.size] <;> omega

lemma pqpQueueSize_cons (t : PQPTree) (q : List PQPTree) :
    pqpQueueSize (t :: q) = t.size + pqpQueueSize q := by
  simp [pqpQueueSize]

lemma pqpQueueSize_append (a b : List PQPTree) :
    pqpQueueSize (a ++ b) = pqpQueueSize a + pqpQueueSize b := by
  simp [pqpQueueSize]

lemma PQPTree.children_size (t : PQPTree) :
    pqpQueueSize t.children + 1 ≤ t.size := by
  cases t <;> simp [PQPTree.children, PQPTree.size, pqpQueueSize] <;> omega

/-- If the queue holds a tree in whose walker-reachable part a `TableScan`
sits directly on a `Validate`, the walk ends in an error. -/
lemma inspectPQPQueue_error (query_frequency : Nat) :
    ∀ (fuel : Nat) (queue : List PQPTree), pqpQueueSize queue ≤ fuel →
      (∃ t ∈ queue, containsScanOverValidate t = true) →
      exceptIsError (inspectPQPQueue query_frequency queue fuel) = true := by
  intro fuel
  induction fuel with
  | zero =>
    intro queue hsize ⟨t0, ht0mem, _⟩
    exfalso
    rcases queue with _ | ⟨t, q⟩
    · simp at ht0mem
    · have := t.size_pos
      rw [pqpQueueSize_cons] at hsize
      omega
  | succ fuel ih =>
    intro queue hsize hpat
    obtain ⟨t0, ht0mem, ht0⟩ := hpat
    rcases queue with _ | ⟨t, q⟩
    · simp at ht0mem
    have hqsize : pqpQueueSize (t :: q) = t.size + pqpQueueSize q := pqpQueueSize_cons t q
    have happsize : pqpQueueSize (q ++ t.children) ≤ fuel := by
      have := t.children_size
      rw [pqpQueueSize_append]
      omega
    cases t with
    | tableScan cid cond rp left =>
      have hqfuel : pqpQueueSize q ≤ fuel := by
        have := PQPTree.size_pos (.tableScan cid cond rp left)
        omega
      have ht0q : containsScanOverValidate (.tableScan cid cond rp left) = false →
          t0 ∈ q := by
        intro hfalse
        rcases List.mem_cons.mp ht0mem with h | h
        · rw [h] at ht0; rw [ht0] at hfalse; cases hfalse
        · exact h
      cases left with
      | validate l =>
        simp [inspectPQPQueue, exceptIsError]
      | getTable tn =>
        have ht0q' : t0 ∈ q := ht0q rfl
        have hrest := ih q hqfuel ⟨t0, ht0q', ht0⟩
        cases rp with
        | value v =>
          show exceptIsError ((inspectPQPQueue query_frequency q fuel).bind fun rest =>
            Except.ok (⟨⟨tn, [cid]⟩, cond, v, query_frequency⟩ :: rest)) = true
          cases hres : inspectPQPQueue query_frequency q fuel with
          | error e => rfl
          | ok rs =>
            rw [hres] at hrest
            simp [exceptIsError] at hrest
        | column c => rfl
        | placeholder i => rfl
      | tableScan cid2 cond2 rp2 l2 =>
        exact ih q hqfuel ⟨t0, ht0q rfl, ht0⟩
      | other0 =>
        exact ih q hqfuel ⟨t0, ht0q rfl, ht0⟩
      | other1 l2 =>
        exact ih q hqfuel ⟨t0, ht0q rfl, ht0⟩
      | other2 l2 r2 =>
        exact ih q hqfuel ⟨t0, ht0q rfl, ht0⟩
    | getTable tn =>
      refine ih _ happsize ?_
      rcases List.mem_cons.mp ht0mem with h | h
      · rw [h] at ht0; simp [containsScanOverValidate] at ht0
      · exact ⟨t0, List.mem_append_left _ h, ht0⟩
    | other0 =>
      refine ih _ happsize ?_
      rcases List.mem_cons.mp ht0mem with h | h
      · rw [h] at ht0; simp [containsScanOverValidate] at ht0
      · exact ⟨t0, List.mem_append_left _ h, ht0⟩
    | validate l =>
      refine ih _ happsize ?_
      rcases List.mem_cons.mp ht0mem with h | h
      · rw [h] at ht0
        rw [containsScanOverValidate] at ht0
        exact ⟨l, List.mem_append_right _ (by simp [PQPTree.children]), ht0⟩
      · exact ⟨t0, List.mem_append_left _ h, ht0⟩
    | other1 l =>
      refine ih _ happsize ?_
      rcases List.mem_cons.mp ht0mem with h | h
      · rw [h] at ht0
        rw [containsScanOverValidate] at ht0
        exact ⟨l, List.mem_append_right _ (by simp [PQPTree.children]), ht0⟩
      · exact ⟨t0, List.mem_append_left _ h, ht0⟩
    | other2 l r =>
      refine ih _ happsize ?_
      rcases List.mem_cons.mp ht0mem with h | h
      · rw [h] at ht0
        rw [containsScanOverValidate, Bool.or_eq_true] at ht0
        rcases ht0 with hl | hr
        · exact ⟨l, List.mem_append_right _ (by simp [PQPTree.children]), hl⟩
        · exact ⟨r, List.mem_append_right _ (by simp [PQPTree.children]), hr⟩
      · exact ⟨t0, List.mem_append_left _ h, ht0⟩

/-- C6: if the physical-plan walker can reach a `TableScan` whose left
input is an MVCC `Validate` (wrapping anything, in particular a
`GetTable`), the walk fails with an assertion error that propagates to the
caller — the input is rejected as a precondition violation, not skipped. -/
theorem pqp_walker_rejects_validate (op : PQPTree) (query_frequency : Nat)
    (h : containsScanOverValidate op = true) :
    exceptIsError (inspect_pqp_operator op query_frequency) = true := by
  rw [inspect_pqp_operator]
  exact inspectPQPQueue_error query_frequency op.size [op]
    (by simp [pqpQueueSize]) ⟨op, by simp, h⟩

/-- Witness for C6: a scan over `Validate(GetTable t)` makes the walker
fail. -/
theorem pqp_walker_rejects_validate_witness :
    exceptIsError
      (inspect_pqp_operator
        (.tableScan 0 .Equals (.value (.intVal 4)) (.validate (.getTable "t"))) 1) =
      true :=
  pqp_walker_rejects_validate
    (.tableScan 0 .Equals (.value (.intVal 4)) (.validate (.getTable "t"))) 1 rfl

lemma benignTree_head {t : LQPTree} (h : benignTree t = true) :
    t.nodeType = .Predicate → benignPred t.predInfo = true := by
  intro hty
  cases t with
  | node0 ty p =>
    rw [benignTree] at h
    rw [LQPTree.nodeType] at hty
    rw [hty] at h
    simpa using h
  | node1 ty p l =>
    rw [benignTree, Bool.and_eq_true] at h
    rw [LQPTree.nodeType] at hty
    rw [hty] at h
    simpa using h.1
  | node2 ty p l r =>
    rw [benignTree, Bool.and_eq_true, Bool.and_eq_true] at h
    rw [LQPTree.nodeType] at hty
    rw [hty] at h
    simpa using h.1.1

lemma benignTree_children {t : LQPTree} (h : benignTree t = true) :
    ∀ c ∈ t.children, benignTree c = true := by
  cases t with
  | node0 ty p => intro c hc; simp [LQPTree.children] at hc
  | node1 ty p l =>
    rw [benignTree, Bool.and_eq_true] at h
    intro c hc
    rw [LQPTree.children] at hc
    rcases List.mem_singleton.mp hc with rfl
    exact h.2
  | node2 ty p l r =>
    rw [benignTree, Bool.and_eq_true, Bool.and_eq_true] at h
    intro c hc
    rw [LQPTree.children] at hc
    rcases List.mem_cons.mp hc with rfl | hc2
    · exact h.1.2
    · rcases List.mem_singleton.mp hc2 with rfl
      exact h.2

/-- A benign predicate (or any non-predicate node) yields neither a record
nor an error. -/
lemma lqpNodeAction_benign (query_frequency : Nat) (t : LQPTree)
    (h : t.nodeType = .Predicate → benignPred t.predInfo = true) :
    lqpNodeAction query_frequency t = .ok none := by
  rw [lqpNodeAction]
  cases hty : t.nodeType with
  | Predicate =>
    have hb := h hty
    cases hp : t.predInfo with
    | none => rw [hp] at hb; simp [benignPred] at hb
    | some info =>
      rw [hp] at hb
      rw [benignPred] at hb
      cases ho : info.column_origin with
      | none => simp [ho]
      | some origin =>
        rw [ho] at hb
        simp only [decide_eq_true_eq] at hb
        simp [ho, hb]
  | StoredTable => rfl
  | Join => rfl
  | Projection => rfl
  | Validate => rfl
  | Other => rfl

lemma inspectLQPQueue_benign (query_frequency : Nat) :
    ∀ (fuel : Nat) (queue : List LQPTree),
      (∀ t ∈ queue, benignTree t = true) →
      inspectLQPQueue query_frequency queue fuel = .ok [] := by
  intro fuel
  induction fuel with
  | zero => intro queue _; rw [inspectLQPQueue]
  | succ fuel ih =>
    intro queue hben
    rcases queue with _ | ⟨t, q⟩
    · rw [inspectLQPQueue]
    · have hbt := hben t (List.mem_cons_self _ _)
      have hact := lqpNodeAction_benign query_frequency t (benignTree_head hbt)
      have hrest : inspectLQPQueue query_frequency (q ++ t.children) fuel = .ok [] := by
        apply ih
        intro c hc
        rcases List.mem_append.mp hc with h | h
        · exact hben c (List.mem_cons_of_mem _ h)
        · exact benignTree_children hbt c h
      rw [inspectLQPQueue, hact, hrest]
      rfl

/-- C8, counterexample.  A `Predicate` node over a `StoredTable`, with a
resolvable column reference, whose right side is a **column** (a
column-to-column comparison), as in `WHERE col_0 > col_1`.  The claim says
the walker emits nothing and raises no error; the code instead calls
`boost::get<AllTypeVariant>(predicate_node->value())`, which throws
`boost::bad_get` — the walk fails with an error. -/
theorem lqp_walker_nonliteral_counterexample :
    inspect_lqp_operator
      (.node1 .Predicate
        (some ⟨some ⟨.StoredTable, "t", some 0⟩, .GreaterThan, .column 1⟩)
        (.node0 .StoredTable none)) 1 =
      .error "boost bad_get: AllTypeVariant" := by
  rfl

/-- C8, amended: a `Predicate` node with no resolvable column reference
(`original_node()` null) or whose reference is not rooted in a
`StoredTable` node is skipped: no record, no error, and traversal
continues (here: for every plan all of whose predicates are of that benign
shape, the walk returns `ok []`).  However, a stored-table-rooted
predicate whose right side is not a literal makes the walker throw
`boost::bad_get`, and one whose column id cannot be resolved trips a
`DebugAssert` — those plans are not processed without error. -/
theorem lqp_walker_benign_predicates (op : LQPTree) (query_frequency : Nat)
    (h : benignTree op = true) :
    inspect_lqp_operator op query_frequency = .ok [] := by
  rw [inspect_lqp_operator]
  exact inspectLQPQueue_benign query_frequency op.size [op]
    (by intro t ht; rcases List.mem_singleton.mp ht with rfl; exact h)

/-- Witness for C8 (amended): a join of two stored tables under a
predicate whose column reference resolves to a `Join` node (not a stored
table) — walked without records and without error. -/
theorem lqp_walker_benign_predicates_witness :
    inspect_lqp_operator
      (.node1 .Predicate
        (some ⟨some ⟨.Join, "", some 0⟩, .Equals, .value (.intVal 7)⟩)
        (.node2 .Join none (.node0 .StoredTable none) (.node0 .StoredTable none))) 3 =
      .ok [] :=
  lqp_walker_benign_predicates
    (.node1 .Predicate
      (some ⟨some ⟨.Join, "", some 0⟩, .Equals, .value (.intVal 7)⟩)
      (.node2 .Join none (.node0 .StoredTable none) (.node0 .StoredTable none))) 3 rfl

/-- On a vector of all-existing, nonnegative-desirability choices, the
selection loop emits nothing: the profitable-drop branch never fires and
the best pointer walks down over existing entries. -/
lemma selectLoop_all_existing {l : List IndexEvaluation} {budget : ℚ}
    (hex : ∀ e ∈ l, e.index_exists = true)
    (hnn : ∀ e ∈ l, 0 ≤ e.desirablility) :
    ∀ (fuel w b : Nat) (mem : ℚ), b < l.length →
      selectLoop l budget w b mem fuel = [] := by
  intro fuel
  induction fuel with
  | zero => intro w b mem _; rw [selectLoop]
  | succ fuel ih =>
    intro w b mem hb
    rw [selectLoop]
    by_cases hbw : b < w
    · rw [if_pos hbw]
    rw [if_neg hbw]
    simp only []
    have hwlen : w < l.length := by omega
    have hneg : ¬((l.getD w default).desirablility < 0 ∧
        -(l.getD w default).desirablility > (l.getD b default).desirablility) := by
      intro hcon
      have := hnn _ (getD_mem_of_lt hwlen)
      linarith [hcon.1]
    rw [if_neg hneg, if_pos (hex _ (getD_mem_of_lt hb))]
    by_cases hb0 : b = 0
    · rw [if_pos hb0]
    · rw [if_neg hb0]
      exact ih w (b - 1) mem (by omega)

/-- C9: when the plan cache is opaque (not a GDFS cache) or holds no
entries, the pass gathers no access records, logs a warning, raises no
exception, produces no new-index candidates, and the selector — fed only
the existing indexes, each with `saved_work` 0 from the empty record map —
returns no operations. -/
theorem tuning_pass_no_workload (cache : Option (List CacheEntry))
    (existing : List ExistingIndex) (rowCount : String → ℚ)
    (matchRows : String → Nat → PredicateCondition → AllTypeVariant → ℚ)
    (memory_budget : ℚ)
    (h : cache = none ∨ cache = some []) :
    inspect_query_cache cache = .ok ([], true) ∧
      aggregateNewIndexes [] existing = [] ∧
      select_indices (choicesForExisting existing rowCount matchRows [])
        memory_budget = [] := by
  refine ⟨?_, rfl, ?_⟩
  · rcases h with rfl | rfl
    · rfl
    · rfl
  · have hex : ∀ e ∈ choicesForExisting existing rowCount matchRows [],
        e.index_exists = true := by
      intro e he
      obtain ⟨ei, _, heq⟩ := List.mem_map.mp he
      rw [← heq]
    have hnn : ∀ e ∈ choicesForExisting existing rowCount matchRows [],
        0 ≤ e.desirablility := by
      intro e he
      obtain ⟨ei, _, heq⟩ := List.mem_map.mp he
      rw [← heq]
      show (0 : ℚ) ≤ getSavedWork (processAllRecords rowCount matchRows [])
        ei.column_ref
      have hz : getSavedWork (processAllRecords rowCount matchRows [])
          ei.column_ref = 0 := rfl
      rw [hz]
    rw [select_indices, selectIndicesRec]
    by_cases hlen : (choicesForExisting existing rowCount matchRows []).length = 0
    · rw [if_pos hlen]; rfl
    · rw [if_neg hlen]
      simp only []
      have hperm := sortEvaluations_perm (choicesForExisting existing rowCount matchRows [])
      have hex' : ∀ e ∈ sortEvaluations (choicesForExisting existing rowCount matchRows []),
          e.index_exists = true := fun e he => hex e (hperm.mem_iff.mp he)
      have hnn' : ∀ e ∈ sortEvaluations (choicesForExisting existing rowCount matchRows []),
          0 ≤ e.desirablility := fun e he => hnn e (hperm.mem_iff.mp he)
      rw [selectLoop_all_existing hex' hnn' _ _ _ _ (by rw [hperm.length_eq]; omega)]
      rfl

/-- Witness for C9: an opaque cache with one 30 MiB existing index and a
50 MiB budget — nothing happens and a warning is flagged. -/
theorem tuning_pass_no_workload_witness :
    inspect_query_cache none = .ok ([], true) ∧
      aggregateNewIndexes [] [⟨⟨"t", [0]⟩, .GroupKey, 30⟩] = [] ∧
      select_indices
        (choicesForExisting [⟨⟨"t", [0]⟩, .GroupKey, 30⟩] rcW mrW []) 50 = [] :=
  tuning_pass_no_workload none [⟨⟨"t", [0]⟩, .GroupKey, 30⟩] rcW mrW 50 (Or.inl rfl)

end HyriseTuning
